import Mathlib

/-! The two-stack expression evaluator of `cmd/main.go`.

A shallow embedding of `evaluateExpression`, `Calc`, `makeOperation` and
`priorityOperations`, and of the error classification of `calculateHandler`.

Conventions of the embedding.

* A Go string is a list of characters.  `Calc` reads the string byte by byte; on
  every string the validator accepts the bytes are the characters, and a
  character outside ASCII starts with a byte that no branch of the scan handles,
  exactly like the character itself here.
* A stack is a list whose head is the top of the stack (the last element of the
  Go slice); `numbersStack[0]` is therefore the last element of the list.
* `float64` and its operations are a parameter (`Arith`): every theorem holds for
  any interpretation of `+ - * /`, of `b == 0` and of the parsing of one digit.
* An outcome is a returned value, a returned error, a run-time panic (index out
  of range) or a loop that never ends.  Loops carry an iteration budget that a
  terminating run cannot exhaust: the budget runs out only when the Go loop does
  not terminate, and the outcome is then `diverge`.
-/

namespace Calculation

/-- The error values the program creates, one for each message text. -/
inductive Err
  | invalidExpression
  | wrongInput
  | invalidOperation
  | divisionByZero
  | unknownOperation
  deriving DecidableEq, Repr

/-- The text of an error (`err.Error()`). -/
def Err.message : Err → String
  | .invalidExpression => "invalid expression"
  | .wrongInput => "неправильный ввод"
  | .invalidOperation => "invalid operation"
  | .divisionByZero => "division by zero"
  | .unknownOperation => "unknown operation"

/-- What a call can do: return a value, return an error, panic, or loop forever. -/
inductive Res (α : Type)
  | ok (a : α)
  | fail (e : Err)
  | panic
  | diverge
  deriving DecidableEq, Repr

/-- The `float64` operations the evaluator uses. -/
structure Arith (F : Type) where
  /-- The value `strconv.ParseFloat` gives for the one-digit text of digit `d`. -/
  ofDigit : Nat → F
  add : F → F → F
  sub : F → F → F
  mul : F → F → F
  div : F → F → F
  /-- The test `b == 0`. -/
  isZero : F → Bool

/-- Exact rational arithmetic, the interpretation used for worked examples. -/
def ratArith : Arith ℚ where
  ofDigit := fun d => (d : ℚ)
  add := fun a b => a + b
  sub := fun a b => a - b
  mul := fun a b => a * b
  div := fun a b => a / b
  isZero := fun b => decide (b = 0)

/-- The function `priorityOperations`. -/
def priorityOperations (operation : Char) : Nat :=
  if operation = '*' ∨ operation = '/' then 2
  else if operation = '+' ∨ operation = '-' then 1
  else 0

/-- The function `makeOperation`: the two stacks it returns and its error (`none` is `nil`). -/
def makeOperation {F : Type} (A : Arith F) (numbersStack : List F) (operationsStack : List Char) :
    List F × List Char × Option Err :=
  match numbersStack, operationsStack with
  | b :: a :: numbers, operation :: operations =>
    if operation = '+' then (A.add a b :: numbers, operations, none)
    else if operation = '-' then (A.sub a b :: numbers, operations, none)
    else if operation = '*' then (A.mul a b :: numbers, operations, none)
    else if operation = '/' then
      if A.isZero b then (numbersStack, operationsStack, some .divisionByZero)
      else (A.div a b :: numbers, operations, none)
    else (numbersStack, operationsStack, some .unknownOperation)
  | _, _ => (numbersStack, operationsStack, some .invalidOperation)

/-- What the condition of a reducing loop says about the operator stack. -/
inductive Guard
  | enter
  | leave
  | indexPanic
  deriving DecidableEq, Repr

/-- The condition of the loop of line 96:
`len(operationsStack) > 0 && priority(top) >= priority(expression[i])`. -/
def priorityGuard (current : Char) : List Char → Guard
  | [] => .leave
  | top :: _ => if priorityOperations top ≥ priorityOperations current then .enter else .leave

/-- The condition of the loop of line 118: `operationsStack[len(operationsStack)-1] != '('`,
an index out of range on the empty stack. -/
def bracketGuard : List Char → Guard
  | [] => .indexPanic
  | top :: _ => if top ≠ '(' then .enter else .leave

/-- The condition of the loop of line 144: `len(operationsStack) > 0`. -/
def drainGuard (operationsStack : List Char) : Guard :=
  if operationsStack.length > 0 then .enter else .leave

/-- The three loops whose body is `makeOperation` followed by `return 0, err` on an error;
they differ in their condition only. -/
def reduceLoop {F : Type} (A : Arith F) (guard : List Char → Guard) :
    Nat → List F → List Char → Res (List F × List Char)
  | 0, _, _ => .diverge
  | fuel + 1, numbersStack, operationsStack =>
    match guard operationsStack with
    | .leave => .ok (numbersStack, operationsStack)
    | .indexPanic => .panic
    | .enter =>
      match makeOperation A numbersStack operationsStack with
      | (numbers, operations, none) => reduceLoop A guard fuel numbers operations
      | (_, _, some err) => .fail err

/-- The local variables of `Calc` other than the index. -/
structure CalcState (F : Type) where
  numbersStack : List F
  operationsStack : List Char
  leftBrackets : Int
  rightBrackets : Int
  deriving DecidableEq, Repr

/-- The scan loop of `Calc` (lines 87 to 134) on the part of the expression from index `i` on.
Each branch that handles the character ends in `i++; continue`; when no branch handles it the
body falls through with `i` unchanged and the loop starts again on the same character. -/
def scanLoop {F : Type} (A : Arith F) : Nat → List Char → CalcState F → Res (CalcState F)
  | 0, _, _ => .diverge
  | _ + 1, [], st => .ok st
  | fuel + 1, c :: rest, st =>
    if c.isDigit then
      scanLoop A fuel rest { st with numbersStack := A.ofDigit (c.toNat - 48) :: st.numbersStack }
    else if c = '+' ∨ c = '-' ∨ c = '*' ∨ c = '/' then
      match reduceLoop A (priorityGuard c) (st.operationsStack.length + 1)
          st.numbersStack st.operationsStack with
      | .ok (numbers, operations) =>
        scanLoop A fuel rest { st with numbersStack := numbers, operationsStack := c :: operations }
      | .fail err => .fail err
      | .panic => .panic
      | .diverge => .diverge
    else if c = '(' then
      scanLoop A fuel rest
        { st with operationsStack := c :: st.operationsStack, leftBrackets := st.leftBrackets + 1 }
    else if c = ')' then
      if st.leftBrackets ≥ st.rightBrackets + 1 then
        match reduceLoop A bracketGuard (st.operationsStack.length + 1)
            st.numbersStack st.operationsStack with
        | .ok (numbers, _ :: operations) =>
          scanLoop A fuel rest
            { numbersStack := numbers, operationsStack := operations,
              leftBrackets := st.leftBrackets - 1, rightBrackets := st.rightBrackets + 1 - 1 }
        | .ok (_, []) => .panic
        | .fail err => .fail err
        | .panic => .panic
        | .diverge => .diverge
      else .fail .wrongInput
    else scanLoop A fuel (c :: rest) st

/-- The function `Calc`. -/
def Calc {F : Type} (A : Arith F) (expression : String) : Res F :=
  match scanLoop A (expression.data.length + 1) expression.data
      { numbersStack := [], operationsStack := [], leftBrackets := 0, rightBrackets := 0 } with
  | .ok st =>
    if st.leftBrackets ≠ 0 ∨ st.rightBrackets ≠ 0 then .fail .wrongInput
    else if (st.numbersStack.length : Int) - 1 ≠ st.operationsStack.length then .fail .wrongInput
    else
      match reduceLoop A drainGuard (st.operationsStack.length + 1)
          st.numbersStack st.operationsStack with
      | .ok (numbers, _) =>
        match numbers.getLast? with
        | some result => .ok result
        | none => .panic
      | .fail err => .fail err
      | .panic => .panic
      | .diverge => .diverge
  | .fail err => .fail err
  | .panic => .panic
  | .diverge => .diverge

/-- The call `strings.ReplaceAll(expression, " ", "")`. -/
def removeSpaces (expression : String) : String :=
  ⟨expression.data.filter (fun c => c ≠ ' ')⟩

/-- The character class of the validator, `[0-9+\-*/()]`. -/
def allowedChar (c : Char) : Bool :=
  c.isDigit || c = '+' || c = '-' || c = '*' || c = '/' || c = '(' || c = ')'

/-- The test `validExpr.MatchString(expression)` for the pattern `^[0-9+\-*/()]+$`:
the whole text is one or more characters of the class. -/
def validExpr (expression : String) : Bool :=
  !expression.data.isEmpty && expression.data.all allowedChar

/-- The function `evaluateExpression`; `format` is `strconv.FormatFloat(result, 'f', -1, 64)`. -/
def evaluateExpression {F : Type} (A : Arith F) (format : F → String) (expression : String) :
    Res String :=
  let expression := removeSpaces expression
  if !validExpr expression then .fail .invalidExpression
  else
    match Calc A expression with
    | .ok result => .ok (format result)
    | .fail err => .fail err
    | .panic => .panic
    | .diverge => .diverge

/-- The answer `calculateHandler` writes for an error of `evaluateExpression`:
the message of the body and the status code. -/
def errorReply (err : Err) : String × Nat :=
  if err.message = "invalid expression" then ("Expression is not valid", 422)
  else if err.message = "division by zero" then ("Division by zero", 422)
  else ("Internal server error", 500)

/-! ## The scan, one character at a time -/

/-- One iteration of the scan loop on the character `c`: the state after the branch that
handles `c`; `diverge` when no branch handles `c`, since the loop then repeats on it forever. -/
def scanStep {F : Type} (A : Arith F) (c : Char) (st : CalcState F) : Res (CalcState F) :=
  if c.isDigit then
    .ok { st with numbersStack := A.ofDigit (c.toNat - 48) :: st.numbersStack }
  else if c = '+' ∨ c = '-' ∨ c = '*' ∨ c = '/' then
    match reduceLoop A (priorityGuard c) (st.operationsStack.length + 1)
        st.numbersStack st.operationsStack with
    | .ok (numbers, operations) =>
      .ok { st with numbersStack := numbers, operationsStack := c :: operations }
    | .fail err => .fail err
    | .panic => .panic
    | .diverge => .diverge
  else if c = '(' then
    .ok { st with operationsStack := c :: st.operationsStack, leftBrackets := st.leftBrackets + 1 }
  else if c = ')' then
    if st.leftBrackets ≥ st.rightBrackets + 1 then
      match reduceLoop A bracketGuard (st.operationsStack.length + 1)
          st.numbersStack st.operationsStack with
      | .ok (numbers, _ :: operations) =>
        .ok { numbersStack := numbers, operationsStack := operations,
              leftBrackets := st.leftBrackets - 1, rightBrackets := st.rightBrackets + 1 - 1 }
      | .ok (_, []) => .panic
      | .fail err => .fail err
      | .panic => .panic
      | .diverge => .diverge
    else .fail .wrongInput
  else .diverge

/-- The scan loop as a fold of `scanStep` over the characters; `scanLoop_eq_scan` shows it is
the loop of `Calc`. -/
def scan {F : Type} (A : Arith F) : List Char → CalcState F → Res (CalcState F)
  | [], st => .ok st
  | c :: rest, st =>
    match scanStep A c st with
    | .ok st1 => scan A rest st1
    | .fail err => .fail err
    | .panic => .panic
    | .diverge => .diverge

/-- The checks and the drain loop of `Calc` after the scan (lines 136 to 152). -/
def finish {F : Type} (A : Arith F) (st : CalcState F) : Res F :=
  if st.leftBrackets ≠ 0 ∨ st.rightBrackets ≠ 0 then .fail .wrongInput
  else if (st.numbersStack.length : Int) - 1 ≠ st.operationsStack.length then .fail .wrongInput
  else
    match reduceLoop A drainGuard (st.operationsStack.length + 1)
        st.numbersStack st.operationsStack with
    | .ok (numbers, _) =>
      match numbers.getLast? with
      | some result => .ok result
      | none => .panic
    | .fail err => .fail err
    | .panic => .panic
    | .diverge => .diverge

/-- The state `Calc` starts from. -/
def initState (F : Type) : CalcState F :=
  { numbersStack := [], operationsStack := [], leftBrackets := 0, rightBrackets := 0 }

/-! ## Syntax trees and the reference evaluator -/

/-- The four binary operators. -/
inductive BinOp
  | add
  | sub
  | mul
  | div
  deriving DecidableEq, Repr

/-- The character of an operator. -/
def BinOp.toChar : BinOp → Char
  | .add => '+'
  | .sub => '-'
  | .mul => '*'
  | .div => '/'

/-- The binding strength of an operator: `*` and `/` bind tighter than `+` and `-`. -/
def BinOp.prio : BinOp → Nat
  | .add => 1
  | .sub => 1
  | .mul => 2
  | .div => 2

/-- The arithmetic of one operator, with the operations and the zero test `makeOperation`
uses; `none` is a division whose right operand is zero. -/
def applyOp {F : Type} (A : Arith F) : BinOp → F → F → Option F
  | .add, a, b => some (A.add a b)
  | .sub, a, b => some (A.sub a b)
  | .mul, a, b => some (A.mul a b)
  | .div, a, b => if A.isZero b then none else some (A.div a b)

/-- Syntax trees of the grammar `E ::= digit | E op E | '(' E ')'`. -/
inductive Expr
  | digit (d : Fin 10)
  | bin (op : BinOp) (l r : Expr)
  | paren (e : Expr)
  deriving DecidableEq, Repr

/-- The character of a digit. -/
def digitChar (d : Fin 10) : Char := Char.ofNat (48 + d.val)

/-- The text of a tree: a group node writes its two brackets, nothing else adds any. -/
def Expr.print : Expr → List Char
  | .digit d => [digitChar d]
  | .bin op l r => l.print ++ op.toChar :: r.print
  | .paren e => '(' :: (e.print ++ [')'])

/-- The reference evaluator: the value of a tree, `none` when a division in it has a right
operand whose value is zero. -/
def Expr.eval {F : Type} (A : Arith F) : Expr → Option F
  | .digit d => some (A.ofDigit d.val)
  | .bin op l r =>
    match l.eval A, r.eval A with
    | some a, some b => applyOp A op a b
    | _, _ => none
  | .paren e => e.eval A

/-- How tightly the outermost construct of a tree binds: an operator as `BinOp.prio` says,
a digit or a group tighter than any operator. -/
def Expr.rank : Expr → Nat
  | .digit _ => 3
  | .bin op _ _ => op.prio
  | .paren _ => 3

/-- The standard reading: a tree is the one the usual conventions give to its text when every
left operand binds at least as tightly as its operator (equal priorities group to the left)
and every right operand binds strictly tighter; inside a group the same holds again. -/
def Expr.standard : Expr → Bool
  | .digit _ => true
  | .bin op l r => l.standard && r.standard && decide (op.prio ≤ l.rank) && decide (op.prio < r.rank)
  | .paren e => e.standard

/-- Whether some division of the tree has a right operand whose value is zero. -/
def Expr.divisionByZero {F : Type} (A : Arith F) : Expr → Bool
  | .digit _ => false
  | .bin op l r =>
    l.divisionByZero A || r.divisionByZero A ||
      (decide (op = .div) && match r.eval A with
        | some b => A.isZero b
        | none => false)
  | .paren e => e.divisionByZero A

/-- The operators still to be applied, top first, to the operands above them, top first:
what the reducing loops compute on the part of the stacks that an expression has pushed. -/
def reduceAll {F : Type} (A : Arith F) : List F → List BinOp → Option F
  | [v], [] => some v
  | b :: a :: vs, o :: os =>
    match applyOp A o a b with
    | some v => reduceAll A (v :: vs) os
    | none => none
  | _, _ => none

/-- The priority of the top of the operator stack, 0 for the empty stack. -/
def topPriority : List Char → Nat
  | [] => 0
  | top :: _ => priorityOperations top

/-- A binary operator character. -/
def isOperator (c : Char) : Bool := c = '+' || c = '-' || c = '*' || c = '/'

/-- The state after an expression has pushed the operands `vs` and left the operators `os`
pending, both top first. -/
def CalcState.pushed {F : Type} (st : CalcState F) (vs : List F) (os : List BinOp) :
    CalcState F :=
  { st with numbersStack := vs ++ st.numbersStack,
            operationsStack := os.map BinOp.toChar ++ st.operationsStack }

/-- The number of digit characters of a text. -/
def digitCount (cs : List Char) : Nat := cs.countP Char.isDigit

/-- The number of binary operator characters of a text. -/
def operatorCount (cs : List Char) : Nat := cs.countP isOperator

/-- What holds of the state at every iteration boundary of the scan: no closing bracket is
counted, the operator stack holds operators and opening brackets only, and `leftBrackets`
counts its opening brackets. -/
def StackInv {F : Type} (st : CalcState F) : Prop :=
  st.rightBrackets = 0 ∧
  (∀ c ∈ st.operationsStack, c = '(' ∨ isOperator c = true) ∧
  (st.operationsStack.count '(' : Int) = st.leftBrackets

/-- The brackets of a text are not balanced: some part of it from the start on has more `)`
than `(`, or the text has not as many `(` as `)`. -/
def Unbalanced (cs : List Char) : Prop :=
  (∃ n, (cs.take n).count '(' < (cs.take n).count ')') ∨ cs.count '(' ≠ cs.count ')'

/-- What one iteration of the scan on the character `c` does to the state, when it returns
no error: the invariant holds again, `leftBrackets` follows the brackets read, a `)` is read
only when an opening bracket is counted, and the operands minus the operators that are on
the stacks follow the digits and operators read. -/
def StepRel {F : Type} (c : Char) (st st1 : CalcState F) : Prop :=
  StackInv st1 ∧
  st1.leftBrackets = st.leftBrackets + ([c].count '(' : Int) - ([c].count ')' : Int) ∧
  (c = ')' → 1 ≤ st.leftBrackets) ∧
  (st1.numbersStack.length : Int) - st1.operationsStack.length + st1.leftBrackets =
    st.numbersStack.length - st.operationsStack.length + st.leftBrackets +
      digitCount [c] - operatorCount [c]

/-- The standard reading of the text of `l`, an operator and a digit or group `x`, for a
standard tree `l`: the operator takes as its left operand the longest end of `l` that binds
at least as tightly as it does. -/
def Expr.attach (l : Expr) (op : BinOp) (x : Expr) : Expr :=
  match l with
  | .bin o l1 l2 => if o.prio < op.prio then .bin o l1 (l2.attach op x) else .bin op l x
  | _ => .bin op l x

/-- The standard reading of a text, read from the left: `readAfter ctx e` reads the text of
the tree `e` after what `ctx` holds, a standard tree already read and the operator that
follows it. -/
def Expr.readAfter : Option (Expr × BinOp) → Expr → Expr
  | none, .digit d => .digit d
  | some (acc, op), .digit d => acc.attach op (.digit d)
  | none, .paren e => .paren (Expr.readAfter none e)
  | some (acc, op), .paren e => acc.attach op (.paren (Expr.readAfter none e))
  | ctx, .bin o l r => Expr.readAfter (some (Expr.readAfter ctx l, o)) r

/-- The standard reading of the text of a tree: the tree with the same text in which `*`
and `/` bind tighter than `+` and `-`, equal priorities group to the left, and the groups are
those the brackets of the text make. -/
def Expr.reading (e : Expr) : Expr := Expr.readAfter none e

/-- The text of what has been read before a tree. -/
def contextText : Option (Expr × BinOp) → List Char
  | none => []
  | some (acc, op) => acc.print ++ [op.toChar]

/-- Two binary operator characters stand next to each other in the text. -/
def AdjacentOperators (cs : List Char) : Prop :=
  ∃ pre a b post, cs = pre ++ a :: b :: post ∧ isOperator a = true ∧ isOperator b = true

/-- The last character of the text is a binary operator. -/
def EndsWithOperator (cs : List Char) : Prop :=
  ∃ pre a, cs = pre ++ [a] ∧ isOperator a = true

/-- The text contains an empty group, an opening bracket followed at once by a closing one. -/
def HasEmptyGroup (cs : List Char) : Prop :=
  ∃ pre post, cs = pre ++ '(' :: ')' :: post

/-- A tree of the grammar that is not a standard reading: its root is the `*` of the text
`2*(3+4)-6/3`. -/
def sampleTree : Expr :=
  .bin .mul (.digit 2)
    (.bin .sub (.paren (.bin .add (.digit 3) (.digit 4))) (.bin .div (.digit 6) (.digit 3)))

/-- The text of a rational for the worked examples: for an integer value its decimal text,
which is what `strconv.FormatFloat(result, 'f', -1, 64)` gives for it; the examples have
integer values only, any other value is written as a quotient. -/
def integerText (q : ℚ) : String :=
  if q.den = 1 then toString q.num else toString q.num ++ "/" ++ toString q.den

/-! ## Counting the calls of `makeOperation` -/

/-- The reducing loops, with the number of calls of `makeOperation` they make: every round
of the loop makes one call, whether it succeeds or returns an error. -/
def reduceLoopCounted {F : Type} (A : Arith F) (guard : List Char → Guard) :
    Nat → List F → List Char → Res (List F × List Char) × Nat
  | 0, _, _ => (.diverge, 0)
  | fuel + 1, numbersStack, operationsStack =>
    match guard operationsStack with
    | .leave => (.ok (numbersStack, operationsStack), 0)
    | .indexPanic => (.panic, 0)
    | .enter =>
      match makeOperation A numbersStack operationsStack with
      | (numbers, operations, none) =>
        ((reduceLoopCounted A guard fuel numbers operations).1,
          (reduceLoopCounted A guard fuel numbers operations).2 + 1)
      | (_, _, some err) => (.fail err, 1)

/-- One iteration of the scan, with the number of calls of `makeOperation` it makes: those
of the loop it runs, none for a digit or an opening bracket. -/
def scanStepCounted {F : Type} (A : Arith F) (c : Char) (st : CalcState F) :
    Res (CalcState F) × Nat :=
  if c.isDigit then
    (.ok { st with numbersStack := A.ofDigit (c.toNat - 48) :: st.numbersStack }, 0)
  else if c = '+' ∨ c = '-' ∨ c = '*' ∨ c = '/' then
    match reduceLoopCounted A (priorityGuard c) (st.operationsStack.length + 1)
        st.numbersStack st.operationsStack with
    | (.ok (numbers, operations), n) =>
      (.ok { st with numbersStack := numbers, operationsStack := c :: operations }, n)
    | (.fail err, n) => (.fail err, n)
    | (.panic, n) => (.panic, n)
    | (.diverge, n) => (.diverge, n)
  else if c = '(' then
    (.ok { st with operationsStack := c :: st.operationsStack,
                   leftBrackets := st.leftBrackets + 1 }, 0)
  else if c = ')' then
    if st.leftBrackets ≥ st.rightBrackets + 1 then
      match reduceLoopCounted A bracketGuard (st.operationsStack.length + 1)
          st.numbersStack st.operationsStack with
      | (.ok (numbers, _ :: operations), n) =>
        (.ok { numbersStack := numbers, operationsStack := operations,
               leftBrackets := st.leftBrackets - 1,
               rightBrackets := st.rightBrackets + 1 - 1 }, n)
      | (.ok (_, []), n) => (.panic, n)
      | (.fail err, n) => (.fail err, n)
      | (.panic, n) => (.panic, n)
      | (.diverge, n) => (.diverge, n)
    else (.fail .wrongInput, 0)
  else (.diverge, 0)

/-- The scan, with the number of calls of `makeOperation` it makes. -/
def scanCounted {F : Type} (A : Arith F) : List Char → CalcState F → Res (CalcState F) × Nat
  | [], st => (.ok st, 0)
  | c :: rest, st =>
    match scanStepCounted A c st with
    | (.ok st1, n) => ((scanCounted A rest st1).1, n + (scanCounted A rest st1).2)
    | (.fail err, n) => (.fail err, n)
    | (.panic, n) => (.panic, n)
    | (.diverge, n) => (.diverge, n)

/-- The checks and the drain loop after the scan, with the number of calls of
`makeOperation` they make. -/
def finishCounted {F : Type} (A : Arith F) (st : CalcState F) : Res F × Nat :=
  if st.leftBrackets ≠ 0 ∨ st.rightBrackets ≠ 0 then (.fail .wrongInput, 0)
  else if (st.numbersStack.length : Int) - 1 ≠ st.operationsStack.length then
    (.fail .wrongInput, 0)
  else
    match reduceLoopCounted A drainGuard (st.operationsStack.length + 1)
        st.numbersStack st.operationsStack with
    | (.ok (numbers, _), n) =>
      match numbers.getLast? with
      | some result => (.ok result, n)
      | none => (.panic, n)
    | (.fail err, n) => (.fail err, n)
    | (.panic, n) => (.panic, n)
    | (.diverge, n) => (.diverge, n)

/-- The function `Calc`, with the total number of calls of `makeOperation` it makes. -/
def CalcCounted {F : Type} (A : Arith F) (expression : String) : Res F × Nat :=
  match scanCounted A expression.data (initState F) with
  | (.ok st, n) => ((finishCounted A st).1, n + (finishCounted A st).2)
  | (.fail err, n) => (.fail err, n)
  | (.panic, n) => (.panic, n)
  | (.diverge, n) => (.diverge, n)

/-! ## The loops -/

theorem scanLoop_stuck {F : Type} (A : Arith F) (c : Char) (rest : List Char) (st : CalcState F)
    (hd : c.isDigit = false) (ho : ¬ (c = '+' ∨ c = '-' ∨ c = '*' ∨ c = '/'))
    (hl : c ≠ '(') (hr : c ≠ ')') :
    ∀ fuel, scanLoop A fuel (c :: rest) st = .diverge := by
  intro fuel
  induction fuel with
  | zero => rfl
  | succ n ih => simp only [scanLoop, hd, ho, hl, hr, if_false, Bool.false_eq_true]; exact ih

/-- The loop of `Calc` is the fold of `scanStep`: its budget is never the reason it stops. -/
theorem scanLoop_eq_scan {F : Type} (A : Arith F) :
    ∀ (cs : List Char) (fuel : Nat) (st : CalcState F), cs.length < fuel →
      scanLoop A fuel cs st = scan A cs st := by
  intro cs
  induction cs with
  | nil =>
    intro fuel st h
    cases fuel with
    | zero => simp at h
    | succ n => rfl
  | cons c rest ih =>
    intro fuel st h
    cases fuel with
    | zero => simp at h
    | succ n =>
      have hn : rest.length < n := by simpa using h
      by_cases hd : c.isDigit = true
      · simp only [scanLoop, scan, scanStep, if_pos hd]
        exact ih n _ hn
      · by_cases ho : c = '+' ∨ c = '-' ∨ c = '*' ∨ c = '/'
        · simp only [scanLoop, scan, scanStep, if_neg hd, if_pos ho]
          cases reduceLoop A (priorityGuard c) (st.operationsStack.length + 1)
              st.numbersStack st.operationsStack with
          | ok p => exact ih n _ hn
          | fail e => rfl
          | panic => rfl
          | diverge => rfl
        · by_cases hl : c = '('
          · simp only [scanLoop, scan, scanStep, if_neg hd, if_neg ho, if_pos hl]
            exact ih n _ hn
          · by_cases hr : c = ')'
            · simp only [scanLoop, scan, scanStep, if_neg hd, if_neg ho, if_neg hl, if_pos hr]
              by_cases hb : st.leftBrackets ≥ st.rightBrackets + 1
              · simp only [if_pos hb]
                cases reduceLoop A bracketGuard (st.operationsStack.length + 1)
                    st.numbersStack st.operationsStack with
                | ok p =>
                  obtain ⟨numbers, operations⟩ := p
                  cases operations with
                  | nil => rfl
                  | cons top operations => exact ih n _ hn
                | fail e => rfl
                | panic => rfl
                | diverge => rfl
              · simp only [if_neg hb]
            · have hs : scanStep A c st = .diverge := by
                simp only [scanStep, if_neg hd, if_neg ho, if_neg hl, if_neg hr]
              rw [scanLoop_stuck A c rest st (by simpa using hd) ho hl hr]
              simp only [scan, hs]

theorem calc_eq {F : Type} (A : Arith F) (expression : String) :
    Calc A expression =
      match scan A expression.data (initState F) with
      | .ok st => finish A st
      | .fail err => .fail err
      | .panic => .panic
      | .diverge => .diverge := by
  unfold Calc
  rw [scanLoop_eq_scan A _ _ _ (Nat.lt_succ_self _)]
  rfl

/-! ## Characters -/

theorem digitChar_isDigit (d : Fin 10) : (digitChar d).isDigit = true := by
  revert d; decide

theorem digitChar_value (d : Fin 10) : (digitChar d).toNat - 48 = d.val := by
  revert d; decide

theorem priorityOperations_toChar (o : BinOp) : priorityOperations o.toChar = o.prio := by
  cases o <;> rfl

theorem toChar_ne_open (o : BinOp) : o.toChar ≠ '(' := by
  cases o <;> decide

theorem scanStep_digit {F : Type} (A : Arith F) (d : Fin 10) (st : CalcState F) :
    scanStep A (digitChar d) st =
      .ok { st with numbersStack := A.ofDigit d.val :: st.numbersStack } := by
  simp only [scanStep, digitChar_isDigit, if_true, digitChar_value]

theorem scanStep_operator {F : Type} (A : Arith F) (o : BinOp) (st : CalcState F) :
    scanStep A o.toChar st =
      match reduceLoop A (priorityGuard o.toChar) (st.operationsStack.length + 1)
          st.numbersStack st.operationsStack with
      | .ok (numbers, operations) =>
        .ok { st with numbersStack := numbers, operationsStack := o.toChar :: operations }
      | .fail err => .fail err
      | .panic => .panic
      | .diverge => .diverge := by
  cases o <;> rfl

theorem scanStep_open {F : Type} (A : Arith F) (st : CalcState F) :
    scanStep A '(' st =
      .ok { st with operationsStack := '(' :: st.operationsStack,
                    leftBrackets := st.leftBrackets + 1 } := by
  rfl

theorem scanStep_close {F : Type} (A : Arith F) (st : CalcState F) :
    scanStep A ')' st =
      if st.leftBrackets ≥ st.rightBrackets + 1 then
        match reduceLoop A bracketGuard (st.operationsStack.length + 1)
            st.numbersStack st.operationsStack with
        | .ok (numbers, _ :: operations) =>
          .ok { numbersStack := numbers, operationsStack := operations,
                leftBrackets := st.leftBrackets - 1, rightBrackets := st.rightBrackets + 1 - 1 }
        | .ok (_, []) => .panic
        | .fail err => .fail err
        | .panic => .panic
        | .diverge => .diverge
      else .fail .wrongInput := by
  rfl

/-! ## The reducing loops on the operators an expression has pushed -/

theorem makeOperation_operator {F : Type} (A : Arith F) (o : BinOp) (a b : F) (ns : List F)
    (ops : List Char) :
    makeOperation A (b :: a :: ns) (o.toChar :: ops) =
      match applyOp A o a b with
      | some v => (v :: ns, ops, none)
      | none => (b :: a :: ns, o.toChar :: ops, some .divisionByZero) := by
  cases o
  · rfl
  · rfl
  · rfl
  · show (if A.isZero b = true then _ else _) = _
    cases h : A.isZero b <;> simp [applyOp, h]

theorem reduceAll_snoc {F : Type} (A : Arith F) (a : F) (o : BinOp) :
    ∀ (os : List BinOp) (vs : List F), vs.length = os.length + 1 →
      reduceAll A (vs ++ [a]) (os ++ [o]) =
        match reduceAll A vs os with
        | some b => applyOp A o a b
        | none => none := by
  intro os
  induction os with
  | nil =>
    intro vs h
    match vs, h with
    | [b], _ =>
      simp only [List.cons_append, List.nil_append, reduceAll]
      cases applyOp A o a b <;> rfl
  | cons p os ih =>
    intro vs h
    match vs, h with
    | b :: c :: vs, h =>
      simp only [List.cons_append, reduceAll]
      cases hp : applyOp A p c b with
      | none => rfl
      | some v =>
        have hl : (v :: vs).length = os.length + 1 := by simpa using h
        simpa using ih (v :: vs) hl

/-- A reducing loop applies every operator an expression has left on the stack, provided its
condition holds on each of them and fails on what lies below. -/
theorem reduceLoop_pending {F : Type} (A : Arith F) (guard : List Char → Guard)
    (ns : List F) (ops : List Char) (hleave : guard ops = .leave) :
    ∀ (os : List BinOp) (vs : List F) (fuel : Nat), vs.length = os.length + 1 →
      os.length < fuel → (∀ o ∈ os, ∀ tl, guard (o.toChar :: tl) = .enter) →
      reduceLoop A guard fuel (vs ++ ns) (os.map BinOp.toChar ++ ops) =
        match reduceAll A vs os with
        | some v => .ok (v :: ns, ops)
        | none => .fail .divisionByZero := by
  intro os
  induction os with
  | nil =>
    intro vs fuel h hf _
    match vs, h, fuel, hf with
    | [v], _, fuel + 1, _ =>
      simp only [List.map_nil, List.nil_append, List.cons_append, reduceLoop, hleave, reduceAll]
  | cons p os ih =>
    intro vs fuel h hf henter
    match vs, h, fuel, hf with
    | b :: a :: vs, h, fuel + 1, hf =>
      have he : guard (p.toChar :: (os.map BinOp.toChar ++ ops)) = .enter :=
        henter p (List.mem_cons_self _ _) _
      simp only [List.map_cons, List.cons_append, reduceLoop, he, makeOperation_operator,
        reduceAll]
      cases hp : applyOp A p a b with
      | none => rfl
      | some v =>
        have hl : (v :: vs).length = os.length + 1 := by simpa using h
        have hf1 : os.length < fuel := by simpa using hf
        have := ih (v :: vs) fuel hl hf1 (fun o ho => henter o (List.mem_cons_of_mem _ ho))
        simpa using this

/-! ## The scan of a standard tree -/

theorem rank_pos (e : Expr) : 1 ≤ e.rank := by
  cases e with
  | digit d => simp [Expr.rank]
  | bin op l r => cases op <;> simp [Expr.rank, BinOp.prio]
  | paren e => simp [Expr.rank]

theorem priorityGuard_leave (o : BinOp) (ops : List Char) (h : topPriority ops < o.prio) :
    priorityGuard o.toChar ops = .leave := by
  cases ops with
  | nil => rfl
  | cons top tl =>
    have h1 : ¬ priorityOperations top ≥ priorityOperations o.toChar := by
      rw [priorityOperations_toChar]; simpa [topPriority] using h
    simp only [priorityGuard, if_neg h1]

theorem priorityGuard_enter (o p : BinOp) (tl : List Char) (h : o.prio ≤ p.prio) :
    priorityGuard o.toChar (p.toChar :: tl) = .enter := by
  have h1 : priorityOperations p.toChar ≥ priorityOperations o.toChar := by
    rw [priorityOperations_toChar, priorityOperations_toChar]; exact h
  simp only [priorityGuard, if_pos h1]

theorem bracketGuard_enter (p : BinOp) (tl : List Char) :
    bracketGuard (p.toChar :: tl) = .enter := by
  simp only [bracketGuard, if_pos (toChar_ne_open p)]

theorem drainGuard_enter (c : Char) (tl : List Char) : drainGuard (c :: tl) = .enter := by
  simp [drainGuard]

/-- Scanning the text of a standard tree either stops at a division by zero of the tree, or
leaves on the stacks operands and pending operators whose reduction is the value of the tree;
the pending operators bind at least as tightly as the tree does. -/
theorem scan_print {F : Type} (A : Arith F) :
    ∀ (e : Expr), e.standard = true → ∀ (rest : List Char) (st : CalcState F),
      topPriority st.operationsStack < e.rank → st.rightBrackets ≤ st.leftBrackets →
      (e.eval A = none ∧ scan A (e.print ++ rest) st = .fail .divisionByZero) ∨
      ∃ vs os, vs.length = os.length + 1 ∧ (∀ o ∈ os, e.rank ≤ o.prio) ∧
        reduceAll A vs os = e.eval A ∧
        scan A (e.print ++ rest) st = scan A rest (st.pushed vs os) := by
  intro e
  induction e with
  | digit d =>
    intro _ rest st _ _
    refine Or.inr ⟨[A.ofDigit d.val], [], rfl, ?_, rfl, ?_⟩
    · intro o ho; cases ho
    · simp only [Expr.print, List.cons_append, List.nil_append, scan, scanStep_digit]
      rfl
  | paren e ih =>
    intro hstd rest st _ hbr
    have hstd1 : e.standard = true := by simpa [Expr.standard] using hstd
    have hprint : (Expr.paren e).print ++ rest = '(' :: (e.print ++ ')' :: rest) := by
      simp [Expr.print]
    rw [hprint]
    simp only [scan, scanStep_open]
    have hrank : topPriority ('(' :: st.operationsStack) < e.rank :=
      Nat.lt_of_lt_of_le (Nat.lt_succ_self 0) (rank_pos e)
    rcases ih hstd1 (')' :: rest)
        { st with operationsStack := '(' :: st.operationsStack,
                  leftBrackets := st.leftBrackets + 1 } hrank
        (by show st.rightBrackets ≤ st.leftBrackets + 1; omega) with h | ⟨vs, os, hlen, _, hred, hscan⟩
    · exact Or.inl ⟨by simpa [Expr.eval] using h.1, h.2⟩
    · rw [hscan]
      have hcond : st.leftBrackets + 1 ≥ st.rightBrackets + 1 := by omega
      have hloop := reduceLoop_pending A bracketGuard st.numbersStack ('(' :: st.operationsStack)
        (by simp [bracketGuard]) os vs
        ((os.map BinOp.toChar ++ '(' :: st.operationsStack).length + 1) hlen
        (by simp; omega) (fun o _ tl => bracketGuard_enter o tl)
      simp only [scan, scanStep_close, CalcState.pushed, if_pos hcond, hloop]
      cases hv : reduceAll A vs os with
      | none =>
        exact Or.inl ⟨by rw [Expr.eval, ← hred, hv], rfl⟩
      | some v =>
        refine Or.inr ⟨[v], [], rfl, ?_, ?_, ?_⟩
        · intro o ho; cases ho
        · rw [Expr.eval, ← hred, hv]; rfl
        · simp only [add_sub_cancel_right, List.map_nil, List.nil_append, List.cons_append]
  | bin op l r ihl ihr =>
    intro hstd rest st hrank hbr
    simp only [Expr.standard, Bool.and_eq_true, decide_eq_true_eq] at hstd
    obtain ⟨⟨⟨hl, hr⟩, hpl⟩, hpr⟩ := hstd
    have hprint : (Expr.bin op l r).print ++ rest = l.print ++ (op.toChar :: (r.print ++ rest)) := by
      simp [Expr.print]
    rw [hprint]
    have hrank1 : topPriority st.operationsStack < op.prio := hrank
    rcases ihl hl (op.toChar :: (r.print ++ rest)) st (Nat.lt_of_lt_of_le hrank1 hpl) hbr with
      h | ⟨vs, os, hlen, hprio, hred, hscan⟩
    · refine Or.inl ⟨?_, h.2⟩
      simp only [Expr.eval, h.1]
    · rw [hscan]
      have hloop := reduceLoop_pending A (priorityGuard op.toChar) st.numbersStack
        st.operationsStack (priorityGuard_leave op _ hrank1) os vs
        ((os.map BinOp.toChar ++ st.operationsStack).length + 1) hlen
        (by simp; omega)
        (fun o ho tl => priorityGuard_enter op o tl (Nat.le_trans hpl (hprio o ho)))
      simp only [scan, scanStep_operator, CalcState.pushed, hloop]
      cases hv : reduceAll A vs os with
      | none =>
        refine Or.inl ⟨?_, rfl⟩
        simp only [Expr.eval, ← hred, hv]
      | some a =>
        have hl_eval : l.eval A = some a := by rw [← hred, hv]
        simp only []
        rcases ihr hr rest
            { numbersStack := a :: st.numbersStack,
              operationsStack := op.toChar :: st.operationsStack,
              leftBrackets := st.leftBrackets, rightBrackets := st.rightBrackets }
            (by show priorityOperations op.toChar < r.rank
                rw [priorityOperations_toChar]; exact hpr) hbr with
          h | ⟨ws, ps, hlen2, hprio2, hred2, hscan2⟩
        · refine Or.inl ⟨?_, h.2⟩
          simp only [Expr.eval, hl_eval, h.1]
        · refine Or.inr ⟨ws ++ [a], ps ++ [op], by simp [hlen2], ?_, ?_, ?_⟩
          · intro o ho
            rcases List.mem_append.1 ho with ho | ho
            · exact Nat.le_of_lt (Nat.lt_of_lt_of_le hpr (hprio2 o ho))
            · have : o = op := by simpa using ho
              subst this; exact Nat.le_refl _
          · rw [reduceAll_snoc A a op ps ws hlen2, hred2]
            simp only [Expr.eval, hl_eval]
            cases r.eval A <;> rfl
          · rw [hscan2]
            simp [CalcState.pushed]

/-- The value `Calc` computes on the text of a standard tree is the value of the reference
evaluator, and its only failure there is the division by zero of the tree. -/
theorem calc_print {F : Type} (A : Arith F) (e : Expr) (h : e.standard = true) :
    Calc A ⟨e.print⟩ =
      match e.eval A with
      | some v => .ok v
      | none => .fail .divisionByZero := by
  rw [calc_eq]
  have hs := scan_print A e h [] (initState F)
    (Nat.lt_of_lt_of_le (Nat.lt_succ_self 0) (rank_pos e)) (Int.le_refl 0)
  simp only [List.append_nil] at hs
  rcases hs with h1 | ⟨vs, os, hlen, _, hred, hscan⟩
  · simp only [h1.1, h1.2]
  · have hloop := reduceLoop_pending A drainGuard [] [] (by decide) os vs
      ((os.map BinOp.toChar ++ []).length + 1) hlen (by simp)
      (fun o _ tl => drainGuard_enter _ tl)
    have hratio : ¬ ((vs ++ ([] : List F)).length : Int) - 1 ≠
        ((os.map BinOp.toChar ++ []).length : Int) := by
      simp [hlen]
    show (match scan A e.print (initState F) with
      | .ok st => finish A st
      | .fail err => .fail err
      | .panic => .panic
      | .diverge => .diverge) = _
    rw [hscan]
    simp only [scan, finish, CalcState.pushed, initState, hloop, ← hred, if_neg hratio]
    cases reduceAll A vs os with
    | none => simp
    | some v => simp

/-! ## The loops on arbitrary stacks -/

theorem isOperator_toChar (c : Char) (h : isOperator c = true) : ∃ o : BinOp, c = o.toChar := by
  simp only [isOperator, Bool.or_eq_true, decide_eq_true_eq] at h
  rcases h with ((h | h) | h) | h
  · exact ⟨.add, h⟩
  · exact ⟨.sub, h⟩
  · exact ⟨.mul, h⟩
  · exact ⟨.div, h⟩

theorem isOperator_ne_open (c : Char) (h : isOperator c = true) : c ≠ '(' := by
  obtain ⟨o, rfl⟩ := isOperator_toChar c h
  exact toChar_ne_open o

theorem makeOperation_cases {F : Type} (A : Arith F) (t : Char) (h : isOperator t = true)
    (a b : F) (ns : List F) (tl : List Char) :
    (∃ v, makeOperation A (b :: a :: ns) (t :: tl) = (v :: ns, tl, none)) ∨
    makeOperation A (b :: a :: ns) (t :: tl) = (b :: a :: ns, t :: tl, some .divisionByZero) := by
  obtain ⟨o, rfl⟩ := isOperator_toChar t h
  rw [makeOperation_operator]
  cases applyOp A o a b with
  | none => exact Or.inr rfl
  | some v => exact Or.inl ⟨v, rfl⟩

theorem makeOperation_short {F : Type} (A : Arith F) (ns : List F) (ops : List Char)
    (h : ns.length < 2) : makeOperation A ns ops = (ns, ops, some .invalidOperation) := by
  match ns, h with
  | [], _ => rfl
  | [_], _ => rfl

/-- A reducing loop whose condition starts the body on operators only: it pops operators
`pre` and as many operands, and stops normally, or at an index out of range, or at an
error of `makeOperation` that is not `unknown operation`; its budget is not exhausted. -/
theorem reduceLoop_cases {F : Type} (A : Arith F) (guard : List Char → Guard)
    (hnil : guard [] ≠ .enter) :
    ∀ (fuel : Nat) (ns : List F) (ops : List Char), ops.length < fuel →
      (∀ t ∈ ops, ∀ tl, guard (t :: tl) = .enter → isOperator t = true) →
      (∃ pre ns1 ops1, ops = pre ++ ops1 ∧ (∀ c ∈ pre, isOperator c = true) ∧
        ns.length = ns1.length + pre.length ∧
        ((guard ops1 = .leave ∧ reduceLoop A guard fuel ns ops = .ok (ns1, ops1)) ∨
         (guard ops1 = .indexPanic ∧ reduceLoop A guard fuel ns ops = .panic))) ∨
      reduceLoop A guard fuel ns ops = .fail .invalidOperation ∨
      reduceLoop A guard fuel ns ops = .fail .divisionByZero := by
  intro fuel
  induction fuel with
  | zero => intro ns ops h; simp at h
  | succ fuel ih =>
    intro ns ops hf hops
    cases hg : guard ops with
    | leave =>
      refine Or.inl ⟨[], ns, ops, rfl, ?_, rfl, Or.inl ⟨hg, ?_⟩⟩
      · intro c hc; cases hc
      · simp only [reduceLoop, hg]
    | indexPanic =>
      refine Or.inl ⟨[], ns, ops, rfl, ?_, rfl, Or.inr ⟨hg, ?_⟩⟩
      · intro c hc; cases hc
      · simp only [reduceLoop, hg]
    | enter =>
      cases ops with
      | nil => exact absurd hg hnil
      | cons t tl =>
        have ht : isOperator t = true := hops t (List.mem_cons_self _ _) tl hg
        match ns with
        | [] =>
          refine Or.inr (Or.inl ?_)
          have hm := makeOperation_short A ([] : List F) (t :: tl) (by simp)
          simp only [reduceLoop, hg, hm]
        | [x] =>
          refine Or.inr (Or.inl ?_)
          have hm := makeOperation_short A [x] (t :: tl) (by simp)
          simp only [reduceLoop, hg, hm]
        | b :: a :: ns2 =>
          rcases makeOperation_cases A t ht a b ns2 tl with ⟨v, hv⟩ | hz
          · have hstep : reduceLoop A guard (fuel + 1) (b :: a :: ns2) (t :: tl) =
                reduceLoop A guard fuel (v :: ns2) tl := by
              simp only [reduceLoop, hg, hv]
            rw [hstep]
            rcases ih (v :: ns2) tl (by simpa using hf)
                (fun c hc => hops c (List.mem_cons_of_mem _ hc)) with
              ⟨pre, ns1, ops1, h1, h2, h3, h4⟩ | h | h
            · refine Or.inl ⟨t :: pre, ns1, ops1, by simp [h1], ?_, ?_, h4⟩
              · intro c hc
                rcases List.mem_cons.1 hc with hc | hc
                · rw [hc]; exact ht
                · exact h2 c hc
              · simp only [List.length_cons] at h3 ⊢; omega
            · exact Or.inr (Or.inl h)
            · exact Or.inr (Or.inr h)
          · refine Or.inr (Or.inr ?_)
            simp only [reduceLoop, hg, hz]

/-- A successful `makeOperation` pops one operator and leaves one operand less. -/
theorem makeOperation_ok_length {F : Type} (A : Arith F) (ns ns1 : List F)
    (ops ops1 : List Char) (h : makeOperation A ns ops = (ns1, ops1, none)) :
    ops1.length + 1 = ops.length ∧ ns1.length + 1 = ns.length := by
  match ns, ops with
  | [], _ => simp [makeOperation] at h
  | [_], _ => simp [makeOperation] at h
  | _ :: _ :: _, [] => simp [makeOperation] at h
  | b :: a :: ns2, t :: tl =>
    simp only [makeOperation] at h
    split_ifs at h <;> simp only [Prod.mk.injEq] at h
    all_goals first
      | (simp at h; done)
      | (obtain ⟨h1, h2, _⟩ := h; subst h1; subst h2; simp)

/-- The budget of a reducing loop, one more than the height of the operator stack, is never
what ends it: every round of the loop pops an operator. -/
theorem reduceLoop_not_diverge {F : Type} (A : Arith F) (guard : List Char → Guard) :
    ∀ (fuel : Nat) (ns : List F) (ops : List Char), ops.length < fuel →
      reduceLoop A guard fuel ns ops ≠ .diverge := by
  intro fuel
  induction fuel with
  | zero => intro ns ops h; simp at h
  | succ fuel ih =>
    intro ns ops hf
    simp only [reduceLoop]
    cases guard ops with
    | leave => simp
    | indexPanic => simp
    | enter =>
      simp only
      rcases hm : makeOperation A ns ops with ⟨ns1, ops1, err⟩
      cases err with
      | some e => simp
      | none =>
        have hl := (makeOperation_ok_length A ns ns1 ops ops1 hm).1
        exact ih ns1 ops1 (by omega)

/-! ## The invariant of the scan -/

theorem count_open_operators (pre : List Char) (h : ∀ c ∈ pre, isOperator c = true) :
    pre.count '(' = 0 := by
  rw [List.count_eq_zero]
  intro hmem
  exact absurd (h _ hmem) (by decide)

theorem isDigit_not_operator (c : Char) (h : c.isDigit = true) : isOperator c = false := by
  cases ho : isOperator c with
  | false => rfl
  | true =>
    obtain ⟨o, rfl⟩ := isOperator_toChar c ho
    cases o <;> exact absurd h (by decide)

theorem singles_digit (c : Char) (h : c.isDigit = true) :
    [c].count '(' = 0 ∧ [c].count ')' = 0 ∧ digitCount [c] = 1 ∧ operatorCount [c] = 0 := by
  have h1 : '(' ≠ c := by rintro rfl; exact absurd h (by decide)
  have h2 : ')' ≠ c := by rintro rfl; exact absurd h (by decide)
  have h3 : ¬ isOperator c = true := by rw [isDigit_not_operator c h]; decide
  refine ⟨?_, ?_, ?_, ?_⟩
  · rw [List.count_cons_of_ne h1, List.count_nil]
  · rw [List.count_cons_of_ne h2, List.count_nil]
  · rw [digitCount, List.countP_cons_of_pos _ _ h]; rfl
  · rw [operatorCount, List.countP_cons_of_neg _ _ h3]; rfl

theorem singles_operator (c : Char) (h : isOperator c = true) :
    [c].count '(' = 0 ∧ [c].count ')' = 0 ∧ digitCount [c] = 0 ∧ operatorCount [c] = 1 := by
  obtain ⟨o, rfl⟩ := isOperator_toChar c h
  cases o <;> decide

theorem singles_open :
    ['('].count '(' = 1 ∧ ['('].count ')' = 0 ∧ digitCount ['('] = 0 ∧
      operatorCount ['('] = 0 := by
  decide

theorem singles_close :
    [')'].count '(' = 0 ∧ [')'].count ')' = 1 ∧ digitCount [')'] = 0 ∧
      operatorCount [')'] = 0 := by
  decide

theorem priorityOperations_pos (c : Char) (h : isOperator c = true) :
    1 ≤ priorityOperations c := by
  obtain ⟨o, rfl⟩ := isOperator_toChar c h
  cases o <;> decide

theorem priorityGuard_not_panic (c : Char) (ops : List Char) :
    priorityGuard c ops ≠ .indexPanic := by
  cases ops with
  | nil => simp [priorityGuard]
  | cons t tl => simp only [priorityGuard]; split <;> simp

theorem drainGuard_not_panic (ops : List Char) : drainGuard ops ≠ .indexPanic := by
  simp only [drainGuard]; split <;> simp

theorem bracketGuard_leave (ops : List Char) (h : bracketGuard ops = .leave) :
    ∃ tl, ops = '(' :: tl := by
  cases ops with
  | nil => simp [bracketGuard] at h
  | cons t tl =>
    by_cases ht : t = '('
    · exact ⟨tl, by rw [ht]⟩
    · simp [bracketGuard, ht] at h

theorem scanStep_cases {F : Type} (A : Arith F) (c : Char) (hc : allowedChar c = true)
    (st : CalcState F) (hinv : StackInv st) :
    (∃ st1, scanStep A c st = .ok st1 ∧ StepRel c st st1) ∨
    scanStep A c st = .fail .wrongInput ∨
    scanStep A c st = .fail .invalidOperation ∨
    scanStep A c st = .fail .divisionByZero := by
  obtain ⟨hr0, hmem, hcount⟩ := hinv
  by_cases hd : c.isDigit = true
  · -- a digit
    obtain ⟨s1, s2, s3, s4⟩ := singles_digit c hd
    have h2 : c ≠ ')' := by rintro rfl; exact absurd hd (by decide)
    refine Or.inl ⟨{ st with numbersStack := A.ofDigit (c.toNat - 48) :: st.numbersStack },
      by simp only [scanStep, if_pos hd], ⟨hr0, hmem, hcount⟩, ?_, ?_, ?_⟩
    · simp only [s1, s2]; omega
    · intro h; exact absurd h h2
    · simp only [s3, s4, List.length_cons]; omega
  · by_cases ho : c = '+' ∨ c = '-' ∨ c = '*' ∨ c = '/'
    · -- an operator
      have hop : isOperator c = true := by
        simp only [isOperator, Bool.or_eq_true, decide_eq_true_eq]
        rcases ho with h | h | h | h <;> simp [h]
      obtain ⟨s1, s2, s3, s4⟩ := singles_operator c hop
      have h1 : c ≠ '(' := isOperator_ne_open c hop
      have h2 : c ≠ ')' := by rintro rfl; exact absurd hop (by decide)
      have hloop := reduceLoop_cases A (priorityGuard c) (by simp [priorityGuard])
        (st.operationsStack.length + 1) st.numbersStack st.operationsStack (Nat.lt_succ_self _)
        (by
          intro t ht tl hg
          rcases hmem t ht with h | h
          · exfalso
            have hp := priorityOperations_pos c hop
            have hlt : ¬ priorityOperations t ≥ priorityOperations c := by
              rw [h]; show ¬ (0 ≥ priorityOperations c); omega
            simp [priorityGuard, hlt] at hg
          · exact h)
      rcases hloop with ⟨pre, ns1, ops1, e1, e2, e3, e4⟩ | h | h
      · rcases e4 with ⟨_, e5⟩ | ⟨e5, _⟩
        · have hc0 := count_open_operators pre e2
          have hcnt : st.operationsStack.count '(' = ops1.count '(' := by
            rw [e1, List.count_append, hc0]; omega
          have hl : st.operationsStack.length = pre.length + ops1.length := by
            rw [e1, List.length_append]
          refine Or.inl ⟨{ st with numbersStack := ns1, operationsStack := c :: ops1 },
            by simp only [scanStep, if_neg hd, if_pos ho, e5], ⟨hr0, ?_, ?_⟩, ?_, ?_, ?_⟩
          · intro x hx
            rcases List.mem_cons.1 hx with hx | hx
            · exact Or.inr (hx ▸ hop)
            · exact hmem x (by rw [e1]; exact List.mem_append_right _ hx)
          · show ((List.count '(' (c :: ops1) : Nat) : Int) = st.leftBrackets
            rw [List.count_cons_of_ne (Ne.symm h1)]; omega
          · simp only [s1, s2]; omega
          · intro h; exact absurd h h2
          · simp only [s3, s4, List.length_cons]; omega
        · exact absurd e5 (priorityGuard_not_panic c ops1)
      · exact Or.inr (Or.inr (Or.inl (by simp only [scanStep, if_neg hd, if_pos ho, h])))
      · exact Or.inr (Or.inr (Or.inr (by simp only [scanStep, if_neg hd, if_pos ho, h])))
    · by_cases hl : c = '('
      · -- an opening bracket
        subst hl
        obtain ⟨s1, s2, s3, s4⟩ := singles_open
        refine Or.inl ⟨_, scanStep_open A st, ⟨hr0, ?_, ?_⟩, ?_, ?_, ?_⟩
        · intro x hx
          rcases List.mem_cons.1 hx with hx | hx
          · exact Or.inl hx
          · exact hmem x hx
        · show ((List.count '(' ('(' :: st.operationsStack) : Nat) : Int) = st.leftBrackets + 1
          rw [List.count_cons_self]; omega
        · simp only [s1, s2]; omega
        · intro h; exact absurd h (by decide)
        · simp only [s3, s4, List.length_cons]; omega
      · have hr : c = ')' := by
          simp only [allowedChar, Bool.or_eq_true, decide_eq_true_eq] at hc
          rcases hc with (((((h | h) | h) | h) | h) | h) | h
          · exact absurd h hd
          · exact absurd (Or.inl h) ho
          · exact absurd (Or.inr (Or.inl h)) ho
          · exact absurd (Or.inr (Or.inr (Or.inl h))) ho
          · exact absurd (Or.inr (Or.inr (Or.inr h))) ho
          · exact absurd h hl
          · exact h
        subst hr
        obtain ⟨s1, s2, s3, s4⟩ := singles_close
        rw [scanStep_close]
        by_cases hb : st.leftBrackets ≥ st.rightBrackets + 1
        · rw [if_pos hb]
          have hloop := reduceLoop_cases A bracketGuard (by simp [bracketGuard])
            (st.operationsStack.length + 1) st.numbersStack st.operationsStack
            (Nat.lt_succ_self _)
            (by
              intro t ht tl hg
              rcases hmem t ht with h | h
              · exfalso; simp [bracketGuard, h] at hg
              · exact h)
          rcases hloop with ⟨pre, ns1, ops1, e1, e2, e3, e4⟩ | h | h
          · have hc0 := count_open_operators pre e2
            rcases e4 with ⟨e5, e6⟩ | ⟨e5, _⟩
            · obtain ⟨ops2, rfl⟩ := bracketGuard_leave ops1 e5
              have hcnt : st.operationsStack.count '(' = ops2.count '(' + 1 := by
                rw [e1, List.count_append, hc0, List.count_cons_self]; omega
              have hlen : st.operationsStack.length = pre.length + (ops2.length + 1) := by
                rw [e1, List.length_append, List.length_cons]
              refine Or.inl ⟨⟨ns1, ops2, st.leftBrackets - 1, st.rightBrackets + 1 - 1⟩,
                by rw [e6], ⟨?_, ?_, ?_⟩, ?_, ?_, ?_⟩
              · show st.rightBrackets + 1 - 1 = 0
                omega
              · intro x hx
                exact hmem x (by rw [e1]; exact List.mem_append_right _ (List.mem_cons_of_mem _ hx))
              · show ((ops2.count '(' : Nat) : Int) = st.leftBrackets - 1
                omega
              · simp only [s1, s2]; omega
              · intro _; omega
              · simp only [s3, s4]; omega
            · exfalso
              cases ops1 with
              | nil =>
                have : st.operationsStack.count '(' = 0 := by
                  rw [e1, List.append_nil]; exact hc0
                omega
              | cons t tl =>
                simp only [bracketGuard] at e5
                split at e5 <;> simp at e5
          · exact Or.inr (Or.inr (Or.inl (by rw [h])))
          · exact Or.inr (Or.inr (Or.inr (by rw [h])))
        · rw [if_neg hb]; exact Or.inr (Or.inl rfl)

theorem count_cons_split (x c : Char) (cs : List Char) :
    (c :: cs).count x = [c].count x + cs.count x :=
  List.count_append x [c] cs

theorem digitCount_cons (c : Char) (cs : List Char) :
    digitCount (c :: cs) = digitCount [c] + digitCount cs :=
  List.countP_append Char.isDigit [c] cs

theorem operatorCount_cons (c : Char) (cs : List Char) :
    operatorCount (c :: cs) = operatorCount [c] + operatorCount cs :=
  List.countP_append isOperator [c] cs

/-- The scan of a text of allowed characters from a state that satisfies the invariant: it
returns a state, or one of three errors; it does not panic and it terminates.  When it
returns a state the invariant holds, `leftBrackets` is the excess of `(` over `)` in the
text, no part of the text from its start on has more `)` than the brackets allow, and the
operands minus the operators on the stacks have followed the digits and operators read. -/
theorem scan_cases {F : Type} (A : Arith F) :
    ∀ (cs : List Char) (st : CalcState F), (∀ c ∈ cs, allowedChar c = true) → StackInv st →
      (∃ st1, scan A cs st = .ok st1 ∧ StackInv st1 ∧
        st1.leftBrackets = st.leftBrackets + (cs.count '(' : Int) - (cs.count ')' : Int) ∧
        (∀ n, ((cs.take n).count ')' : Int) ≤ st.leftBrackets + ((cs.take n).count '(' : Int)) ∧
        (st1.numbersStack.length : Int) - st1.operationsStack.length + st1.leftBrackets =
          st.numbersStack.length - st.operationsStack.length + st.leftBrackets +
            digitCount cs - operatorCount cs) ∨
      scan A cs st = .fail .wrongInput ∨
      scan A cs st = .fail .invalidOperation ∨
      scan A cs st = .fail .divisionByZero := by
  intro cs
  induction cs with
  | nil =>
    intro st _ hinv
    have hnn : (0 : Int) ≤ st.leftBrackets := by
      rw [← hinv.2.2]; exact Int.ofNat_nonneg _
    refine Or.inl ⟨st, rfl, hinv, ?_, ?_, ?_⟩
    · simp
    · intro n; simpa using hnn
    · simp [digitCount, operatorCount]
  | cons c rest ih =>
    intro st hall hinv
    have hnn : (0 : Int) ≤ st.leftBrackets := by
      rw [← hinv.2.2]; exact Int.ofNat_nonneg _
    rcases scanStep_cases A c (hall c (List.mem_cons_self _ _)) st hinv with
      ⟨st1, hs, hinv1, hl1, hcl, hr1⟩ | h | h | h
    · rcases ih st1 (fun x hx => hall x (List.mem_cons_of_mem _ hx)) hinv1 with
        ⟨st2, hs2, hinv2, hl2, hp2, hr2⟩ | h | h | h
      · refine Or.inl ⟨st2, by simp only [scan, hs, hs2], hinv2, ?_, ?_, ?_⟩
        · rw [count_cons_split '(' c rest, count_cons_split ')' c rest]
          push_cast; omega
        · intro n
          cases n with
          | zero => simpa using hnn
          | succ n =>
            have := hp2 n
            rw [List.take_succ_cons, count_cons_split '(' c, count_cons_split ')' c]
            push_cast; omega
        · rw [digitCount_cons, operatorCount_cons]
          push_cast; omega
      · exact Or.inr (Or.inl (by simp only [scan, hs, h]))
      · exact Or.inr (Or.inr (Or.inl (by simp only [scan, hs, h])))
      · exact Or.inr (Or.inr (Or.inr (by simp only [scan, hs, h])))
    · exact Or.inr (Or.inl (by simp only [scan, h]))
    · exact Or.inr (Or.inr (Or.inl (by simp only [scan, h])))
    · exact Or.inr (Or.inr (Or.inr (by simp only [scan, h])))

theorem stackInv_init (F : Type) : StackInv (initState F) := by
  refine ⟨rfl, ?_, rfl⟩
  intro c hc; cases hc

theorem validExpr_all (s : String) (h : validExpr s = true) :
    s.data ≠ [] ∧ ∀ c ∈ s.data, allowedChar c = true := by
  simp only [validExpr, Bool.and_eq_true, Bool.not_eq_true', List.isEmpty_eq_false,
    List.all_eq_true] at h
  exact h

/-- On a text the validator accepts, `Calc` returns a number or one of three errors: it
does not panic, it terminates, and it never reports `unknown operation`.  A number is
returned only for a text whose brackets are balanced and which has one digit more than it
has operators. -/
theorem calc_cleaned {F : Type} (A : Arith F) (s : String) (h : validExpr s = true) :
    (∃ v, Calc A s = .ok v ∧ ¬ Unbalanced s.data ∧
      digitCount s.data = operatorCount s.data + 1) ∨
    Calc A s = .fail .wrongInput ∨
    Calc A s = .fail .invalidOperation ∨
    Calc A s = .fail .divisionByZero := by
  rw [calc_eq]
  rcases scan_cases A s.data (initState F) (validExpr_all s h).2 (stackInv_init F) with
    ⟨st, hs, hinv, hl, hp, hr⟩ | h | h | h
  · rw [hs]
    simp only [initState, List.length_nil, Int.ofNat_zero, Nat.cast_zero] at hl hp hr
    obtain ⟨hr0, hmem, hcount⟩ := hinv
    by_cases hb : st.leftBrackets ≠ 0 ∨ st.rightBrackets ≠ 0
    · exact Or.inr (Or.inl (by simp only [finish, if_pos hb]))
    · have hl0 : st.leftBrackets = 0 := by
        by_contra hne; exact hb (Or.inl hne)
      by_cases hq : (st.numbersStack.length : Int) - 1 ≠ st.operationsStack.length
      · exact Or.inr (Or.inl (by simp only [finish, if_neg hb, if_pos hq]))
      · have hq1 : (st.numbersStack.length : Int) - 1 = st.operationsStack.length := by
          by_contra hne; exact hq hne
        have hnone : '(' ∉ st.operationsStack := by
          rw [← List.count_eq_zero]; omega
        have hloop := reduceLoop_cases A drainGuard (by simp [drainGuard])
          (st.operationsStack.length + 1) st.numbersStack st.operationsStack
          (Nat.lt_succ_self _)
          (by
            intro t ht tl _
            rcases hmem t ht with h | h
            · exact absurd (h ▸ ht) hnone
            · exact h)
        rcases hloop with ⟨pre, ns1, ops1, e1, e2, e3, e4⟩ | h | h
        · rcases e4 with ⟨e5, e6⟩ | ⟨e5, _⟩
          · have hops1 : ops1 = [] := by
              cases ops1 with
              | nil => rfl
              | cons t tl => simp [drainGuard] at e5
            have hlen : st.operationsStack.length = pre.length := by
              rw [e1, hops1, List.append_nil]
            have hns1 : ns1.length = 1 := by omega
            match ns1, hns1 with
            | [v], _ =>
              refine Or.inl ⟨v, by simp only [finish, if_neg hb, if_neg hq, e6]; rfl, ?_, ?_⟩
              · rintro (⟨n, hn⟩ | hne)
                · have := hp n; omega
                · omega
              · omega
          · exact absurd e5 (drainGuard_not_panic ops1)
        · exact Or.inr (Or.inr (Or.inl (by simp only [finish, if_neg hb, if_neg hq, h])))
        · exact Or.inr (Or.inr (Or.inr (by simp only [finish, if_neg hb, if_neg hq, h])))
  · exact Or.inr (Or.inl (by rw [h]))
  · exact Or.inr (Or.inr (Or.inl (by rw [h])))
  · exact Or.inr (Or.inr (Or.inr (by rw [h])))

/-! ## The standard reading of a text -/

theorem prio_le_two (op : BinOp) : op.prio ≤ 2 := by
  cases op <;> decide

theorem rank_digit (d : Fin 10) : (Expr.digit d).rank = 3 := rfl

theorem rank_paren (e : Expr) : (Expr.paren e).rank = 3 := rfl

theorem rank_bin (op : BinOp) (l r : Expr) : (Expr.bin op l r).rank = op.prio := rfl

theorem attach_print (op : BinOp) (x : Expr) :
    ∀ l : Expr, (l.attach op x).print = l.print ++ op.toChar :: x.print := by
  intro l
  induction l with
  | digit d => rfl
  | paren e _ => rfl
  | bin o l1 l2 _ ih2 =>
    by_cases h : o.prio < op.prio
    · simp only [Expr.attach, if_pos h, Expr.print, ih2, List.append_assoc, List.cons_append]
    · simp only [Expr.attach, if_neg h, Expr.print]

theorem attach_rank (op : BinOp) (x : Expr) :
    ∀ l : Expr, min l.rank op.prio ≤ (l.attach op x).rank := by
  intro l
  cases l with
  | digit d => exact Nat.min_le_right _ _
  | paren e => exact Nat.min_le_right _ _
  | bin o l1 l2 =>
    by_cases h : o.prio < op.prio
    · simp only [Expr.attach, if_pos h, rank_bin]; exact Nat.min_le_left _ _
    · simp only [Expr.attach, if_neg h, rank_bin]; exact Nat.min_le_right _ _

theorem attach_standard (op : BinOp) (x : Expr) (hx : x.standard = true) (hr : x.rank = 3) :
    ∀ l : Expr, l.standard = true → (l.attach op x).standard = true := by
  intro l
  have h2 := prio_le_two op
  induction l with
  | digit d =>
    intro _
    simp only [Expr.attach, Expr.standard, hx, rank_bin, rank_digit, rank_paren, hr, Bool.and_eq_true,
      decide_eq_true_eq, true_and]
    omega
  | paren e _ =>
    intro hl
    simp only [Expr.standard] at hl
    simp only [Expr.attach, Expr.standard, hx, hl, rank_bin, rank_digit, rank_paren, hr, Bool.and_eq_true,
      decide_eq_true_eq, true_and]
    omega
  | bin o l1 l2 _ ih2 =>
    intro hl
    simp only [Expr.standard, Bool.and_eq_true, decide_eq_true_eq] at hl
    obtain ⟨⟨⟨hl1, hl2⟩, hp1⟩, hp2⟩ := hl
    by_cases h : o.prio < op.prio
    · have hrk := attach_rank op x l2
      simp only [Expr.attach, if_pos h, Expr.standard, hl1, ih2 hl2, Bool.and_eq_true,
        decide_eq_true_eq, true_and, rank_bin]
      refine ⟨hp1, ?_⟩
      have : o.prio < min l2.rank op.prio := Nat.lt_min.2 ⟨hp2, h⟩
      omega
    · simp only [Expr.attach, if_neg h, Expr.standard, hl1, hl2, hx, rank_bin, rank_digit, rank_paren, hr,
        Bool.and_eq_true, decide_eq_true_eq, true_and]
      refine ⟨⟨⟨⟨hp1, hp2⟩, trivial⟩, ?_⟩, ?_⟩ <;> omega

theorem readAfter_print :
    ∀ (e : Expr) (ctx : Option (Expr × BinOp)),
      (Expr.readAfter ctx e).print = contextText ctx ++ e.print := by
  intro e
  induction e with
  | digit d =>
    intro ctx
    match ctx with
    | none => rfl
    | some (acc, op) =>
      simp only [Expr.readAfter, attach_print, contextText, Expr.print, List.append_assoc,
        List.cons_append, List.nil_append]
  | paren e ih =>
    intro ctx
    match ctx with
    | none =>
      simp only [Expr.readAfter, Expr.print, ih, contextText, List.nil_append]
    | some (acc, op) =>
      simp only [Expr.readAfter, attach_print, contextText, Expr.print, ih, List.append_assoc,
        List.cons_append, List.nil_append]
  | bin o l r ihl ihr =>
    intro ctx
    simp only [Expr.readAfter, ihr, ihl, contextText, Expr.print, List.append_assoc,
      List.cons_append, List.nil_append]

theorem readAfter_standard :
    ∀ (e : Expr) (ctx : Option (Expr × BinOp)),
      (∀ acc op, ctx = some (acc, op) → acc.standard = true) →
      (Expr.readAfter ctx e).standard = true := by
  intro e
  induction e with
  | digit d =>
    intro ctx hctx
    match ctx, hctx with
    | none, _ => rfl
    | some (acc, op), hctx =>
      exact attach_standard op (.digit d) rfl rfl acc (hctx acc op rfl)
  | paren e ih =>
    intro ctx hctx
    have he : (Expr.readAfter none e).standard = true := ih none (fun _ _ h => by cases h)
    match ctx, hctx with
    | none, _ => simpa only [Expr.readAfter, Expr.standard] using he
    | some (acc, op), hctx =>
      exact attach_standard op (.paren (Expr.readAfter none e))
        (by simpa only [Expr.standard] using he) rfl acc (hctx acc op rfl)
  | bin o l r ihl ihr =>
    intro ctx hctx
    simp only [Expr.readAfter]
    apply ihr
    intro acc op h
    cases h
    exact ihl ctx hctx

theorem reading_print (e : Expr) : e.reading.print = e.print := by
  simp only [Expr.reading, readAfter_print, contextText, List.nil_append]

theorem reading_standard (e : Expr) : e.reading.standard = true :=
  readAfter_standard e none (fun _ _ h => by cases h)

/-- The reference evaluator fails exactly when a division of the tree has a right operand
whose value is zero. -/
theorem eval_none_iff {F : Type} (A : Arith F) :
    ∀ e : Expr, e.eval A = none ↔ e.divisionByZero A = true := by
  intro e
  induction e with
  | digit d => simp [Expr.eval, Expr.divisionByZero]
  | paren e ih => simpa [Expr.eval, Expr.divisionByZero] using ih
  | bin op l r ihl ihr =>
    simp only [Expr.divisionByZero, Bool.or_eq_true, Bool.and_eq_true, decide_eq_true_eq,
      ← ihl, ← ihr]
    cases hl : l.eval A with
    | none => simp [Expr.eval, hl]
    | some a =>
      cases hr : r.eval A with
      | none => simp [Expr.eval, hl, hr]
      | some b =>
        cases op <;> cases hz : A.isZero b <;> simp [Expr.eval, hl, hr, applyOp, hz]

/-- All standard readings of one text have the same value. -/
theorem standard_value_unique {F : Type} (A : Arith F) (e1 e2 : Expr)
    (h1 : e1.standard = true) (h2 : e2.standard = true) (h : e1.print = e2.print) :
    e1.eval A = e2.eval A := by
  have c1 := calc_print A e1 h1
  have c2 := calc_print A e2 h2
  rw [h, c2] at c1
  cases v1 : e1.eval A <;> cases v2 : e2.eval A <;> simp_all

theorem attach_of_rank (op : BinOp) (x l : Expr) (h : op.prio ≤ l.rank) :
    l.attach op x = .bin op l x := by
  cases l with
  | digit d => rfl
  | paren e => rfl
  | bin o l1 l2 =>
    have hn : ¬ o.prio < op.prio := by rw [rank_bin] at h; omega
    simp only [Expr.attach, if_neg hn]

theorem readAfter_atom (acc : Expr) (o : BinOp) (r : Expr) (hr : r.rank = 3)
    (hfix : Expr.readAfter none r = r) :
    Expr.readAfter (some (acc, o)) r = acc.attach o r := by
  cases r with
  | digit d => rfl
  | paren e =>
    simp only [Expr.readAfter, Expr.paren.injEq] at hfix
    simp only [Expr.readAfter, hfix]
  | bin p r1 r2 =>
    have := prio_le_two p
    rw [rank_bin] at hr; omega

theorem readAfter_of_standard :
    ∀ r : Expr, r.standard = true →
      Expr.readAfter none r = r ∧
      ∀ (l : Expr) (op : BinOp), op.prio < r.rank → op.prio ≤ l.rank →
        Expr.readAfter (some (l, op)) r = .bin op l r := by
  intro r
  induction r with
  | digit d =>
    intro _
    refine ⟨rfl, fun l op _ hl => ?_⟩
    simp only [Expr.readAfter, attach_of_rank op _ l hl]
  | paren e ih =>
    intro h
    have he : Expr.readAfter none e = e := (ih (by simpa only [Expr.standard] using h)).1
    refine ⟨by simp only [Expr.readAfter, he], fun l op _ hl => ?_⟩
    simp only [Expr.readAfter, he, attach_of_rank op _ l hl]
  | bin o r1 r2 ih1 ih2 =>
    intro h
    simp only [Expr.standard, Bool.and_eq_true, decide_eq_true_eq] at h
    obtain ⟨⟨⟨h1, h2⟩, hp1⟩, hp2⟩ := h
    obtain ⟨f1, g1⟩ := ih1 h1
    obtain ⟨f2, g2⟩ := ih2 h2
    have ho := prio_le_two o
    refine ⟨?_, fun l op hop hl => ?_⟩
    · simp only [Expr.readAfter, f1, g2 r1 o hp2 hp1]
    · rw [rank_bin] at hop
      have hr2 : r2.rank = 3 := by
        have hpos : 1 ≤ op.prio := by cases op <;> decide
        cases r2 with
        | digit d => rfl
        | paren e => rfl
        | bin p a b => have := prio_le_two p; rw [rank_bin] at hp2; omega
      have e1 : Expr.readAfter (some (l, op)) r1 = .bin op l r1 := g1 l op (by omega) hl
      simp only [Expr.readAfter, e1]
      rw [readAfter_atom _ o r2 hr2 f2]
      simp only [Expr.attach, if_pos hop, attach_of_rank o r2 r1 hp1]

/-- A standard tree is the standard reading of its own text. -/
theorem reading_of_standard (e : Expr) (h : e.standard = true) : e.reading = e :=
  (readAfter_of_standard e h).1

/-! ## Empty groups -/

theorem scan_append {F : Type} (A : Arith F) :
    ∀ (pre rest : List Char) (st : CalcState F),
      scan A (pre ++ rest) st =
        match scan A pre st with
        | .ok st1 => scan A rest st1
        | .fail err => .fail err
        | .panic => .panic
        | .diverge => .diverge := by
  intro pre
  induction pre with
  | nil => intro rest st; rfl
  | cons c pre ih =>
    intro rest st
    simp only [List.cons_append, scan]
    cases scanStep A c st with
    | ok st1 => exact ih rest st1
    | fail e => rfl
    | panic => rfl
    | diverge => rfl

/-- The scan of an empty group leaves the state as it was. -/
theorem scan_empty_group {F : Type} (A : Arith F) (rest : List Char) (st : CalcState F)
    (h : st.rightBrackets ≤ st.leftBrackets) :
    scan A ('(' :: ')' :: rest) st = scan A rest st := by
  have hcond : st.leftBrackets + 1 ≥ st.rightBrackets + 1 := by omega
  have hloop : reduceLoop A bracketGuard (('(' :: st.operationsStack).length + 1)
      st.numbersStack ('(' :: st.operationsStack) =
      .ok (st.numbersStack, '(' :: st.operationsStack) := by
    simp [reduceLoop, bracketGuard]
  simp only [scan, scanStep_open, scanStep_close, if_pos hcond, hloop, add_sub_cancel_right]

/-- `Calc` skips an empty group: its outcome on a text of allowed characters is its outcome
on the text without the group. -/
theorem calc_empty_group {F : Type} (A : Arith F) (pre post : List Char)
    (h : ∀ c ∈ pre, allowedChar c = true) :
    Calc A ⟨pre ++ '(' :: ')' :: post⟩ = Calc A ⟨pre ++ post⟩ := by
  rw [calc_eq, calc_eq]
  simp only [scan_append A pre]
  rcases scan_cases A pre (initState F) h (stackInv_init F) with
    ⟨st, hs, hinv, _⟩ | hs | hs | hs
  · have hle : st.rightBrackets ≤ st.leftBrackets := by
      rw [hinv.1, ← hinv.2.2]; exact Int.ofNat_nonneg _
    simp only [hs, scan_empty_group A post st hle]
  · simp only [hs]
  · simp only [hs]
  · simp only [hs]

/-! ## The validator -/

theorem validExpr_iff (s : String) :
    validExpr s = true ↔ s.data ≠ [] ∧ ∀ c ∈ s.data, allowedChar c = true := by
  simp only [validExpr, Bool.and_eq_true, Bool.not_eq_true', List.isEmpty_eq_false,
    List.all_eq_true]

theorem validExpr_false_iff (s : String) :
    validExpr s = false ↔ s.data = [] ∨ ∃ c ∈ s.data, allowedChar c = false := by
  rw [← Bool.not_eq_true, validExpr_iff]
  constructor
  · intro h
    by_cases he : s.data = []
    · exact Or.inl he
    · right
      by_contra hne
      apply h
      refine ⟨he, fun c hc => ?_⟩
      cases hx : allowedChar c with
      | true => rfl
      | false => exact absurd ⟨c, hc, hx⟩ hne
  · rintro (he | ⟨c, hc, hx⟩) ⟨h1, h2⟩
    · exact h1 he
    · rw [h2 c hc] at hx; cases hx

theorem evaluateExpression_invalid {F : Type} (A : Arith F) (format : F → String) (s : String)
    (h : validExpr (removeSpaces s) = false) :
    evaluateExpression A format s = .fail .invalidExpression := by
  simp only [evaluateExpression, h, Bool.not_false, if_true]

theorem evaluateExpression_valid {F : Type} (A : Arith F) (format : F → String) (s : String)
    (h : validExpr (removeSpaces s) = true) :
    evaluateExpression A format s =
      match Calc A (removeSpaces s) with
      | .ok result => .ok (format result)
      | .fail err => .fail err
      | .panic => .panic
      | .diverge => .diverge := by
  simp only [evaluateExpression, h, Bool.not_true, Bool.false_eq_true, if_false]

/-- A text the validator accepts in which the digits are not one more than the operators
gets no number from `Calc`: it fails with one of three errors. -/
theorem calc_ratio_off {F : Type} (A : Arith F) (s : String) (h : validExpr s = true)
    (hratio : digitCount s.data ≠ operatorCount s.data + 1) :
    Calc A s = .fail .wrongInput ∨ Calc A s = .fail .invalidOperation ∨
      Calc A s = .fail .divisionByZero := by
  rcases calc_cleaned A s h with ⟨v, _, _, hd⟩ | h1
  · exact absurd hd hratio
  · exact h1

theorem removeSpaces_idem (s : String) : removeSpaces (removeSpaces s) = removeSpaces s := by
  simp only [removeSpaces, List.filter_filter, Bool.and_self]

theorem removeSpaces_insert (pre post : List Char) :
    removeSpaces ⟨pre ++ ' ' :: post⟩ = removeSpaces ⟨pre ++ post⟩ := by
  simp [removeSpaces, List.filter_append]

theorem evaluateExpression_congr {F : Type} (A : Arith F) (format : F → String) (s t : String)
    (h : removeSpaces s = removeSpaces t) :
    evaluateExpression A format s = evaluateExpression A format t := by
  simp only [evaluateExpression, h]

/-! ## Termination of one iteration -/

theorem allowedChar_cases (c : Char) (h : allowedChar c = true) :
    c.isDigit = true ∨ isOperator c = true ∨ c = '(' ∨ c = ')' := by
  simp only [allowedChar, Bool.or_eq_true, decide_eq_true_eq] at h
  simp only [isOperator, Bool.or_eq_true, decide_eq_true_eq]
  tauto

/-- An iteration of the scan on a character of the validator's class ends: it consumes the
character, returns an error or panics, it does not repeat on the same character. -/
theorem scanStep_not_diverge {F : Type} (A : Arith F) (c : Char) (h : allowedChar c = true)
    (st : CalcState F) : scanStep A c st ≠ .diverge := by
  by_cases hd : c.isDigit = true
  · simp only [scanStep, if_pos hd]; simp
  · by_cases ho : c = '+' ∨ c = '-' ∨ c = '*' ∨ c = '/'
    · have hn := reduceLoop_not_diverge A (priorityGuard c) (st.operationsStack.length + 1)
        st.numbersStack st.operationsStack (Nat.lt_succ_self _)
      simp only [scanStep, if_neg hd, if_pos ho]
      cases hl : reduceLoop A (priorityGuard c) (st.operationsStack.length + 1)
          st.numbersStack st.operationsStack with
      | ok p => simp
      | fail e => simp
      | panic => simp
      | diverge => exact absurd hl hn
    · by_cases hl : c = '('
      · simp only [scanStep, if_neg hd, if_neg ho, if_pos hl]; simp
      · have hr : c = ')' := by
          rcases allowedChar_cases c h with h1 | h1 | h1 | h1
          · exact absurd h1 hd
          · exfalso; apply ho
            simpa [isOperator, or_assoc] using h1
          · exact absurd h1 hl
          · exact h1
        subst hr
        rw [scanStep_close]
        have hn := reduceLoop_not_diverge A bracketGuard (st.operationsStack.length + 1)
          st.numbersStack st.operationsStack (Nat.lt_succ_self _)
        by_cases hb : st.leftBrackets ≥ st.rightBrackets + 1
        · rw [if_pos hb]
          cases hl : reduceLoop A bracketGuard (st.operationsStack.length + 1)
              st.numbersStack st.operationsStack with
          | ok p =>
            obtain ⟨numbers, operations⟩ := p
            cases operations <;> simp
          | fail e => simp
          | panic => simp
          | diverge => exact absurd hl hn
        · rw [if_neg hb]; simp

theorem string_eq_of_data (s : String) (cs : List Char) (h : s.data = cs) : s = ⟨cs⟩ := by
  cases s
  simp only at h
  rw [h]

/-! ## Opening brackets on the operator stack, and the drain loop -/

/-- A successful `makeOperation` has popped one of `+ - * /`. -/
theorem makeOperation_ok_top {F : Type} (A : Arith F) (ns ns1 : List F)
    (ops ops1 : List Char) (h : makeOperation A ns ops = (ns1, ops1, none)) :
    ∃ t, isOperator t = true ∧ ops = t :: ops1 := by
  match ns, ops with
  | [], _ => simp [makeOperation] at h
  | [_], _ => simp [makeOperation] at h
  | _ :: _ :: _, [] => simp [makeOperation] at h
  | b :: a :: ns2, t :: tl =>
    by_cases hop : isOperator t = true
    · rcases makeOperation_cases A t hop a b ns2 tl with ⟨v, hv⟩ | hz
      · rw [hv] at h
        simp only [Prod.mk.injEq] at h
        exact ⟨t, hop, by rw [h.2.1]⟩
      · rw [hz] at h
        simp at h
    · have hno : isOperator t = false := by simpa using hop
      simp only [isOperator, Bool.or_eq_false_iff, decide_eq_false_iff_not] at hno
      obtain ⟨⟨⟨h1, h2⟩, h3⟩, h4⟩ := hno
      simp [makeOperation, if_neg h1, if_neg h2, if_neg h3, if_neg h4] at h

theorem makeOperation_keeps_open {F : Type} (A : Arith F) (ns ns1 : List F)
    (ops ops1 : List Char) (h : makeOperation A ns ops = (ns1, ops1, none)) :
    ops1.count '(' = ops.count '(' := by
  obtain ⟨t, ht, rfl⟩ := makeOperation_ok_top A ns ns1 ops ops1 h
  rw [List.count_cons_of_ne (Ne.symm (isOperator_ne_open t ht))]

/-- No reducing loop removes an opening bracket from the operator stack. -/
theorem reduceLoop_keeps_open {F : Type} (A : Arith F) (guard : List Char → Guard) :
    ∀ (fuel : Nat) (ns ns1 : List F) (ops ops1 : List Char),
      reduceLoop A guard fuel ns ops = .ok (ns1, ops1) → ops1.count '(' = ops.count '(' := by
  intro fuel
  induction fuel with
  | zero => intro ns ns1 ops ops1 h; simp [reduceLoop] at h
  | succ fuel ih =>
    intro ns ns1 ops ops1 h
    simp only [reduceLoop] at h
    cases hg : guard ops with
    | leave =>
      simp only [hg, Res.ok.injEq, Prod.mk.injEq] at h
      rw [h.2]
    | indexPanic => simp [hg] at h
    | enter =>
      simp only [hg] at h
      rcases hm : makeOperation A ns ops with ⟨ns2, ops2, err⟩
      cases err with
      | some e => simp [hm] at h
      | none =>
        simp only [hm] at h
        rw [ih ns2 ns1 ops2 ops1 h, makeOperation_keeps_open A ns ns2 ops ops2 hm]

/-- The drain loop on a stack of operators with one operand more than operators: it ends
with one operand and no operator, or with `division by zero`. -/
theorem drain_ratio {F : Type} (A : Arith F) :
    ∀ (fuel : Nat) (ns : List F) (ops : List Char), ops.length < fuel →
      (∀ c ∈ ops, isOperator c = true) → ns.length = ops.length + 1 →
      (∃ v, reduceLoop A drainGuard fuel ns ops = .ok ([v], [])) ∨
      reduceLoop A drainGuard fuel ns ops = .fail .divisionByZero := by
  intro fuel
  induction fuel with
  | zero => intro ns ops h; simp at h
  | succ fuel ih =>
    intro ns ops hf hops hlen
    match ops, ns, hlen with
    | [], [v], _ =>
      exact Or.inl ⟨v, by simp [reduceLoop, drainGuard]⟩
    | t :: tl, b :: a :: ns2, hlen =>
      have ht : isOperator t = true := hops t (List.mem_cons_self _ _)
      have hg : drainGuard (t :: tl) = .enter := drainGuard_enter t tl
      rcases makeOperation_cases A t ht a b ns2 tl with ⟨v, hv⟩ | hz
      · have hstep : reduceLoop A drainGuard (fuel + 1) (b :: a :: ns2) (t :: tl) =
            reduceLoop A drainGuard fuel (v :: ns2) tl := by
          simp only [reduceLoop, hg, hv]
        rw [hstep]
        exact ih (v :: ns2) tl (by simpa using hf)
          (fun c hc => hops c (List.mem_cons_of_mem _ hc)) (by simpa using hlen)
      · exact Or.inr (by simp only [reduceLoop, hg, hz])

/-- The loop of `Calc` at an iteration boundary: when the scan of the first part `pre` of the
text has returned the state `st`, the loop on the whole text continues from `st` on the rest
of the text. -/
theorem scanLoop_boundary {F : Type} (A : Arith F) (pre rest : List Char) (st : CalcState F)
    (h : scan A pre (initState F) = .ok st) :
    scanLoop A ((pre ++ rest).length + 1) (pre ++ rest) (initState F) =
      scanLoop A (rest.length + 1) rest st := by
  rw [scanLoop_eq_scan A _ _ _ (Nat.lt_succ_self _),
    scanLoop_eq_scan A _ _ _ (Nat.lt_succ_self _), scan_append, h]

/-- The state at an iteration boundary of the scan of a text the validator accepts satisfies
the invariant, and `leftBrackets` is the excess of `(` over `)` in the part scanned. -/
theorem scan_boundary {F : Type} (A : Arith F) (s : String) (h : validExpr s = true)
    (pre rest : List Char) (st : CalcState F) (hs : s.data = pre ++ rest)
    (hscan : scan A pre (initState F) = .ok st) :
    StackInv st ∧ st.leftBrackets = (pre.count '(' : Int) - (pre.count ')' : Int) := by
  have hall : ∀ c ∈ pre, allowedChar c = true := fun c hc =>
    ((validExpr_iff s).1 h).2 c (by rw [hs]; exact List.mem_append_left _ hc)
  rcases scan_cases A pre (initState F) hall (stackInv_init F) with
    ⟨st1, h1, hinv, hl, _, _⟩ | h1 | h1 | h1
  · rw [hscan] at h1
    cases h1
    refine ⟨hinv, ?_⟩
    rw [hl]; simp [initState]
  · rw [hscan] at h1; cases h1
  · rw [hscan] at h1; cases h1
  · rw [hscan] at h1; cases h1

/-- At the end of a scan that has returned a state with `leftBrackets = 0`, the operands
minus the operators on the stacks are the digits minus the operators of the text. -/
theorem scan_end_counts {F : Type} (A : Arith F) (cs : List Char)
    (hall : ∀ c ∈ cs, allowedChar c = true) (st : CalcState F)
    (hscan : scan A cs (initState F) = .ok st) (hl : st.leftBrackets = 0) :
    StackInv st ∧
      (st.numbersStack.length : Int) - st.operationsStack.length =
        (digitCount cs : Int) - (operatorCount cs : Int) := by
  rcases scan_cases A cs (initState F) hall (stackInv_init F) with
    ⟨st1, h1, hinv, _, _, hr⟩ | h1 | h1 | h1
  · rw [hscan] at h1
    cases h1
    refine ⟨hinv, ?_⟩
    simp only [initState, List.length_nil, Nat.cast_zero] at hr
    omega
  · rw [hscan] at h1; cases h1
  · rw [hscan] at h1; cases h1
  · rw [hscan] at h1; cases h1

theorem operators_of_no_open {F : Type} (st : CalcState F) (hinv : StackInv st)
    (hl : st.leftBrackets = 0) : ∀ c ∈ st.operationsStack, isOperator c = true := by
  intro c hc
  have hnone : '(' ∉ st.operationsStack := by
    rw [← List.count_eq_zero]
    have := hinv.2.2
    omega
  rcases hinv.2.1 c hc with h | h
  · exact absurd (h ▸ hc) hnone
  · exact h

/-! ## The counted run is the run -/

theorem reduceLoopCounted_fst {F : Type} (A : Arith F) (guard : List Char → Guard) :
    ∀ (fuel : Nat) (ns : List F) (ops : List Char),
      (reduceLoopCounted A guard fuel ns ops).1 = reduceLoop A guard fuel ns ops := by
  intro fuel
  induction fuel with
  | zero => intro ns ops; rfl
  | succ fuel ih =>
    intro ns ops
    simp only [reduceLoopCounted, reduceLoop]
    cases guard ops with
    | leave => rfl
    | indexPanic => rfl
    | enter =>
      simp only
      rcases makeOperation A ns ops with ⟨ns1, ops1, err⟩
      cases err with
      | none => exact ih ns1 ops1
      | some e => rfl

theorem scanStepCounted_fst {F : Type} (A : Arith F) (c : Char) (st : CalcState F) :
    (scanStepCounted A c st).1 = scanStep A c st := by
  by_cases hd : c.isDigit = true
  · simp only [scanStepCounted, scanStep, if_pos hd]
  · by_cases ho : c = '+' ∨ c = '-' ∨ c = '*' ∨ c = '/'
    · simp only [scanStepCounted, scanStep, if_neg hd, if_pos ho]
      rw [← reduceLoopCounted_fst]
      rcases reduceLoopCounted A (priorityGuard c) (st.operationsStack.length + 1)
          st.numbersStack st.operationsStack with ⟨r, n⟩
      cases r <;> rfl
    · by_cases hl : c = '('
      · simp only [scanStepCounted, scanStep, if_neg hd, if_neg ho, if_pos hl]
      · by_cases hr : c = ')'
        · simp only [scanStepCounted, scanStep, if_neg hd, if_neg ho, if_neg hl, if_pos hr]
          by_cases hb : st.leftBrackets ≥ st.rightBrackets + 1
          · simp only [if_pos hb]
            rw [← reduceLoopCounted_fst]
            rcases reduceLoopCounted A bracketGuard (st.operationsStack.length + 1)
                st.numbersStack st.operationsStack with ⟨r, n⟩
            cases r with
            | ok p =>
              obtain ⟨numbers, operations⟩ := p
              cases operations <;> rfl
            | fail e => rfl
            | panic => rfl
            | diverge => rfl
          · simp only [if_neg hb]
        · simp only [scanStepCounted, scanStep, if_neg hd, if_neg ho, if_neg hl, if_neg hr]

theorem scanCounted_fst {F : Type} (A : Arith F) :
    ∀ (cs : List Char) (st : CalcState F), (scanCounted A cs st).1 = scan A cs st := by
  intro cs
  induction cs with
  | nil => intro st; rfl
  | cons c rest ih =>
    intro st
    simp only [scanCounted, scan]
    rw [← scanStepCounted_fst]
    rcases scanStepCounted A c st with ⟨r, n⟩
    cases r with
    | ok st1 => exact ih st1
    | fail e => rfl
    | panic => rfl
    | diverge => rfl

theorem finishCounted_fst {F : Type} (A : Arith F) (st : CalcState F) :
    (finishCounted A st).1 = finish A st := by
  by_cases hb : st.leftBrackets ≠ 0 ∨ st.rightBrackets ≠ 0
  · simp only [finishCounted, finish, if_pos hb]
  · by_cases hq : (st.numbersStack.length : Int) - 1 ≠ st.operationsStack.length
    · simp only [finishCounted, finish, if_neg hb, if_pos hq]
    · simp only [finishCounted, finish, if_neg hb, if_neg hq]
      rw [← reduceLoopCounted_fst]
      rcases reduceLoopCounted A drainGuard (st.operationsStack.length + 1)
          st.numbersStack st.operationsStack with ⟨r, n⟩
      cases r with
      | ok p =>
        obtain ⟨numbers, operations⟩ := p
        simp only
        cases numbers.getLast? <;> rfl
      | fail e => rfl
      | panic => rfl
      | diverge => rfl

/-- The first component of the counted run is the outcome of `Calc`. -/
theorem calcCounted_fst {F : Type} (A : Arith F) (s : String) :
    (CalcCounted A s).1 = Calc A s := by
  rw [calc_eq, ← scanCounted_fst]
  simp only [CalcCounted]
  rcases scanCounted A s.data (initState F) with ⟨r, n⟩
  cases r with
  | ok st => exact finishCounted_fst A st
  | fail e => rfl
  | panic => rfl
  | diverge => rfl

/-! ## The number of calls of `makeOperation` -/

theorem operatorCount_cons_operator (t : Char) (tl : List Char) (h : isOperator t = true) :
    operatorCount (t :: tl) = operatorCount tl + 1 :=
  List.countP_cons_of_pos _ _ h

theorem operatorCount_cons_le (t : Char) (tl : List Char) :
    operatorCount tl ≤ operatorCount (t :: tl) := by
  rw [operatorCount_cons]; omega

/-- A reducing loop that starts its body on operators only makes at most as many calls as
there are operators on the stack, and when it ends normally every call has popped one. -/
theorem reduceLoopCounted_bound {F : Type} (A : Arith F) (guard : List Char → Guard)
    (hnil : guard [] ≠ .enter) :
    ∀ (fuel : Nat) (ns : List F) (ops : List Char),
      (∀ t ∈ ops, ∀ tl, guard (t :: tl) = .enter → isOperator t = true) →
      (reduceLoopCounted A guard fuel ns ops).2 ≤ operatorCount ops ∧
      ∀ ns1 ops1, (reduceLoopCounted A guard fuel ns ops).1 = .ok (ns1, ops1) →
        (reduceLoopCounted A guard fuel ns ops).2 + operatorCount ops1 = operatorCount ops := by
  intro fuel
  induction fuel with
  | zero =>
    intro ns ops _
    refine ⟨Nat.zero_le _, ?_⟩
    intro ns1 ops1 h
    simp [reduceLoopCounted] at h
  | succ fuel ih =>
    intro ns ops hops
    cases hg : guard ops with
    | leave =>
      simp only [reduceLoopCounted, hg]
      refine ⟨Nat.zero_le _, ?_⟩
      intro ns1 ops1 h
      simp only [Res.ok.injEq, Prod.mk.injEq] at h
      rw [h.2]; omega
    | indexPanic =>
      simp only [reduceLoopCounted, hg]
      refine ⟨Nat.zero_le _, ?_⟩
      intro ns1 ops1 h
      cases h
    | enter =>
      cases ops with
      | nil => exact absurd hg hnil
      | cons t tl =>
        have ht : isOperator t = true := hops t (List.mem_cons_self _ _) tl hg
        have hcnt := operatorCount_cons_operator t tl ht
        rcases hm : makeOperation A ns (t :: tl) with ⟨ns2, ops2, err⟩
        cases err with
        | some e =>
          simp only [reduceLoopCounted, hg, hm]
          refine ⟨by omega, ?_⟩
          intro ns1 ops1 h
          cases h
        | none =>
          obtain ⟨t1, _, htop⟩ := makeOperation_ok_top A ns ns2 (t :: tl) ops2 hm
          have htl : tl = ops2 := (List.cons.inj htop).2
          subst htl
          obtain ⟨h1, h2⟩ := ih ns2 tl (fun c hc => hops c (List.mem_cons_of_mem _ hc))
          simp only [reduceLoopCounted, hg, hm]
          refine ⟨by omega, ?_⟩
          intro ns1 ops1 h
          have := h2 ns1 ops1 h
          omega

/-- One iteration of the scan from a state that satisfies the invariant makes at most as
many calls as there are operators on the stack; when it returns a state, the calls and the
operators left on the stack are at most the operators that were there and the one read. -/
theorem scanStepCounted_bound {F : Type} (A : Arith F) (c : Char)
    (st : CalcState F) (hinv : StackInv st) :
    (scanStepCounted A c st).2 ≤ operatorCount st.operationsStack ∧
    ∀ st1, (scanStepCounted A c st).1 = .ok st1 →
      (scanStepCounted A c st).2 + operatorCount st1.operationsStack ≤
        operatorCount st.operationsStack + operatorCount [c] := by
  obtain ⟨_, hmem, _⟩ := hinv
  by_cases hd : c.isDigit = true
  · simp only [scanStepCounted, if_pos hd]
    refine ⟨Nat.zero_le _, ?_⟩
    intro st1 h
    simp only [Res.ok.injEq] at h
    rw [← h]; simp
  · by_cases ho : c = '+' ∨ c = '-' ∨ c = '*' ∨ c = '/'
    · have hop : isOperator c = true := by
        simp only [isOperator, Bool.or_eq_true, decide_eq_true_eq]
        rcases ho with h | h | h | h <;> simp [h]
      have hc1 : operatorCount [c] = 1 := (singles_operator c hop).2.2.2
      obtain ⟨b1, b2⟩ := reduceLoopCounted_bound A (priorityGuard c) (by simp [priorityGuard])
        (st.operationsStack.length + 1) st.numbersStack st.operationsStack
        (by
          intro t ht tl hg
          rcases hmem t ht with h | h
          · exfalso
            have hp := priorityOperations_pos c hop
            have hlt : ¬ priorityOperations t ≥ priorityOperations c := by
              rw [h]; show ¬ (0 ≥ priorityOperations c); omega
            simp [priorityGuard, hlt] at hg
          · exact h)
      simp only [scanStepCounted, if_neg hd, if_pos ho]
      rcases hl : reduceLoopCounted A (priorityGuard c) (st.operationsStack.length + 1)
          st.numbersStack st.operationsStack with ⟨r, n⟩
      rw [hl] at b1 b2
      cases r with
      | ok p =>
        obtain ⟨numbers, operations⟩ := p
        refine ⟨b1, ?_⟩
        intro st1 h
        simp only [Res.ok.injEq] at h
        have := b2 numbers operations rfl
        rw [← h, hc1]
        show n + operatorCount (c :: operations) ≤ _
        rw [operatorCount_cons_operator c operations hop]
        simp only at this
        omega
      | fail e => exact ⟨b1, fun st1 h => by cases h⟩
      | panic => exact ⟨b1, fun st1 h => by cases h⟩
      | diverge => exact ⟨b1, fun st1 h => by cases h⟩
    · by_cases hl : c = '('
      · simp only [scanStepCounted, if_neg hd, if_neg ho, if_pos hl]
        refine ⟨Nat.zero_le _, ?_⟩
        intro st1 h
        simp only [Res.ok.injEq] at h
        rw [← h]
        show 0 + operatorCount (c :: st.operationsStack) ≤ _
        rw [operatorCount_cons]; omega
      · by_cases hr : c = ')'
        · simp only [scanStepCounted, if_neg hd, if_neg ho, if_neg hl, if_pos hr]
          by_cases hb : st.leftBrackets ≥ st.rightBrackets + 1
          · simp only [if_pos hb]
            obtain ⟨b1, b2⟩ := reduceLoopCounted_bound A bracketGuard (by simp [bracketGuard])
              (st.operationsStack.length + 1) st.numbersStack st.operationsStack
              (by
                intro t ht tl hg
                rcases hmem t ht with h | h
                · exfalso; simp [bracketGuard, h] at hg
                · exact h)
            rcases hloop : reduceLoopCounted A bracketGuard (st.operationsStack.length + 1)
                st.numbersStack st.operationsStack with ⟨r, n⟩
            rw [hloop] at b1 b2
            cases r with
            | ok p =>
              obtain ⟨numbers, operations⟩ := p
              cases operations with
              | nil => exact ⟨b1, fun st1 h => by cases h⟩
              | cons t operations =>
                refine ⟨b1, ?_⟩
                intro st1 h
                simp only [Res.ok.injEq] at h
                have h2 := b2 numbers (t :: operations) rfl
                have h3 := operatorCount_cons_le t operations
                rw [← h]
                show n + operatorCount operations ≤ _
                simp only at h2
                omega
            | fail e => exact ⟨b1, fun st1 h => by cases h⟩
            | panic => exact ⟨b1, fun st1 h => by cases h⟩
            | diverge => exact ⟨b1, fun st1 h => by cases h⟩
          · simp only [if_neg hb]
            exact ⟨Nat.zero_le _, fun st1 h => by cases h⟩
        · simp only [scanStepCounted, if_neg hd, if_neg ho, if_neg hl, if_neg hr]
          exact ⟨Nat.zero_le _, fun st1 h => by cases h⟩

/-- The scan of a text of allowed characters from a state that satisfies the invariant makes
at most as many calls as there are operators on the stack and in the text. -/
theorem scanCounted_bound {F : Type} (A : Arith F) :
    ∀ (cs : List Char) (st : CalcState F), (∀ c ∈ cs, allowedChar c = true) → StackInv st →
      (scanCounted A cs st).2 ≤ operatorCount st.operationsStack + operatorCount cs ∧
      ∀ st1, (scanCounted A cs st).1 = .ok st1 →
        (scanCounted A cs st).2 + operatorCount st1.operationsStack ≤
          operatorCount st.operationsStack + operatorCount cs := by
  intro cs
  induction cs with
  | nil =>
    intro st _ _
    refine ⟨Nat.zero_le _, ?_⟩
    intro st1 h
    simp only [scanCounted, Res.ok.injEq] at h
    rw [← h]; simp [scanCounted]
  | cons c rest ih =>
    intro st hall hinv
    obtain ⟨b1, b2⟩ := scanStepCounted_bound A c st hinv
    have hfst := scanStepCounted_fst A c st
    have hcons := operatorCount_cons c rest
    rcases hstep : scanStepCounted A c st with ⟨r, n⟩
    rw [hstep] at b1 b2 hfst
    simp only at b1 b2 hfst
    cases r with
    | ok st1 =>
      have hinv1 : StackInv st1 := by
        rcases scanStep_cases A c (hall c (List.mem_cons_self _ _)) st hinv with
          ⟨st2, h2, hrel⟩ | h2 | h2 | h2
        · rw [← hfst] at h2; cases h2; exact hrel.1
        · rw [← hfst] at h2; cases h2
        · rw [← hfst] at h2; cases h2
        · rw [← hfst] at h2; cases h2
      obtain ⟨c1, c2⟩ := ih st1 (fun x hx => hall x (List.mem_cons_of_mem _ hx)) hinv1
      have hb := b2 st1 rfl
      simp only [scanCounted, hstep]
      refine ⟨by omega, ?_⟩
      intro st3 h3
      have := c2 st3 h3
      omega
    | fail e =>
      simp only [scanCounted, hstep]
      exact ⟨by omega, fun st1 h => by cases h⟩
    | panic =>
      simp only [scanCounted, hstep]
      exact ⟨by omega, fun st1 h => by cases h⟩
    | diverge =>
      simp only [scanCounted, hstep]
      exact ⟨by omega, fun st1 h => by cases h⟩

theorem finishCounted_bound {F : Type} (A : Arith F) (st : CalcState F) (hinv : StackInv st) :
    (finishCounted A st).2 ≤ operatorCount st.operationsStack := by
  by_cases hb : st.leftBrackets ≠ 0 ∨ st.rightBrackets ≠ 0
  · simp only [finishCounted, if_pos hb]; exact Nat.zero_le _
  · by_cases hq : (st.numbersStack.length : Int) - 1 ≠ st.operationsStack.length
    · simp only [finishCounted, if_neg hb, if_pos hq]; exact Nat.zero_le _
    · have hl0 : st.leftBrackets = 0 := by
        by_contra hne; exact hb (Or.inl hne)
      have hops := operators_of_no_open st hinv hl0
      obtain ⟨b1, _⟩ := reduceLoopCounted_bound A drainGuard (by simp [drainGuard])
        (st.operationsStack.length + 1) st.numbersStack st.operationsStack
        (fun t ht _ _ => hops t ht)
      simp only [finishCounted, if_neg hb, if_neg hq]
      rcases hloop : reduceLoopCounted A drainGuard (st.operationsStack.length + 1)
          st.numbersStack st.operationsStack with ⟨r, n⟩
      rw [hloop] at b1
      cases r with
      | ok p =>
        obtain ⟨numbers, operations⟩ := p
        simp only
        cases numbers.getLast? <;> exact b1
      | fail e => exact b1
      | panic => exact b1
      | diverge => exact b1

/-- On a text of allowed characters `Calc` makes at most as many calls of `makeOperation`
as the text has operator characters. -/
theorem calcCounted_bound {F : Type} (A : Arith F) (s : String)
    (hall : ∀ c ∈ s.data, allowedChar c = true) :
    (CalcCounted A s).2 ≤ operatorCount s.data := by
  obtain ⟨b1, b2⟩ := scanCounted_bound A s.data (initState F) hall (stackInv_init F)
  have hfst := scanCounted_fst A s.data (initState F)
  have h0 : operatorCount (initState F).operationsStack = 0 := rfl
  rcases hscan : scanCounted A s.data (initState F) with ⟨r, n⟩
  rw [hscan] at b1 b2 hfst
  simp only at b1 b2 hfst
  cases r with
  | ok st =>
    have hinv : StackInv st := by
      rcases scan_cases A s.data (initState F) hall (stackInv_init F) with
        ⟨st2, h2, hinv2, _⟩ | h2 | h2 | h2
      · rw [← hfst] at h2; cases h2; exact hinv2
      · rw [← hfst] at h2; cases h2
      · rw [← hfst] at h2; cases h2
      · rw [← hfst] at h2; cases h2
    have hf := finishCounted_bound A st hinv
    have hb := b2 st rfl
    simp only [CalcCounted, hscan]
    omega
  | fail e => simp only [CalcCounted, hscan]; omega
  | panic => simp only [CalcCounted, hscan]; omega
  | diverge => simp only [CalcCounted, hscan]; omega

/-! ## The claims -/

/-- C1. For every tree `e` of the grammar `E ::= digit | E op E | '(' E ')'`, that is for
every well-formed text `e.print`: the text has a standard reading `e.reading` (a tree with
the same text in which `*` and `/` bind tighter than `+` and `-`, equal priorities group to
the left and brackets override both), and when no division of that reading has a right
operand whose value is zero, `Calc` succeeds on the text and returns exactly the value the
reference evaluator gives to the reading, with the same arithmetic operations. -/
theorem calc_standard_reading {F : Type} (A : Arith F) (e : Expr)
    (h : e.reading.divisionByZero A = false) :
    e.reading.standard = true ∧ e.reading.print = e.print ∧
      ∃ v, e.reading.eval A = some v ∧ Calc A ⟨e.print⟩ = .ok v := by
  refine ⟨reading_standard e, reading_print e, ?_⟩
  have hc := calc_print A e.reading (reading_standard e)
  rw [reading_print] at hc
  cases hv : e.reading.eval A with
  | none =>
    have := (eval_none_iff A e.reading).1 hv
    rw [h] at this
    exact absurd this (by decide)
  | some v =>
    rw [hv] at hc
    exact ⟨v, rfl, hc⟩

theorem calc_standard_reading_witness :
    sampleTree.reading.divisionByZero ratArith = false ∧
      sampleTree.print = "2*(3+4)-6/3".data ∧ sampleTree.reading ≠ sampleTree ∧
      Calc ratArith "2*(3+4)-6/3" = .ok 12 := by
  obtain ⟨_, _, v, hv, hc⟩ := calc_standard_reading ratArith sampleTree (by decide!)
  have h12 : sampleTree.reading.eval ratArith = some 12 := by decide!
  rw [h12] at hv
  cases hv
  exact ⟨by decide!, by decide, by decide, hc⟩

/-- C2. For every well-formed text (the text of a tree `e` of the grammar), `Calc` fails if
and only if some division of the standard reading has a right operand whose value is zero,
and the failure is then `division by zero`: no other error and no number. -/
theorem calc_fails_iff_division_by_zero {F : Type} (A : Arith F) (e : Expr) :
    ((∃ err, Calc A ⟨e.print⟩ = .fail err) ↔ e.reading.divisionByZero A = true) ∧
      (e.reading.divisionByZero A = true → Calc A ⟨e.print⟩ = .fail .divisionByZero) := by
  have hc := calc_print A e.reading (reading_standard e)
  rw [reading_print] at hc
  have hiff := eval_none_iff A e.reading
  cases hv : e.reading.eval A with
  | none =>
    rw [hv] at hc
    have hd : e.reading.divisionByZero A = true := hiff.1 hv
    exact ⟨⟨fun _ => hd, fun _ => ⟨_, hc⟩⟩, fun _ => hc⟩
  | some v =>
    rw [hv] at hc
    have hd : ¬ e.reading.divisionByZero A = true := fun h => by
      have := hiff.2 h
      rw [hv] at this
      cases this
    refine ⟨⟨?_, fun h => absurd h hd⟩, fun h => absurd h hd⟩
    rintro ⟨err, herr⟩
    rw [hc] at herr
    cases herr

theorem calc_fails_iff_division_by_zero_witness :
    Calc ratArith "5/0" = .fail .divisionByZero ∧
      Calc ratArith "1/(2-2)" = .fail .divisionByZero :=
  ⟨(calc_fails_iff_division_by_zero ratArith (.bin .div (.digit 5) (.digit 0))).2 (by decide!),
   (calc_fails_iff_division_by_zero ratArith
      (.bin .div (.digit 1) (.paren (.bin .sub (.digit 2) (.digit 2))))).2 (by decide!)⟩

/-- C3. For all digits `a`, `b`, `c`: on `a+b*c` `Calc` returns `a + (b * c)`, the
multiplication is applied first, and on `(a+b)*c` it returns `(a + b) * c`, the brackets
override the priority. -/
theorem calc_precedence {F : Type} (A : Arith F) (a b c : Fin 10) :
    Calc A ⟨[digitChar a, '+', digitChar b, '*', digitChar c]⟩ =
        .ok (A.add (A.ofDigit a.val) (A.mul (A.ofDigit b.val) (A.ofDigit c.val))) ∧
      Calc A ⟨['(', digitChar a, '+', digitChar b, ')', '*', digitChar c]⟩ =
        .ok (A.mul (A.add (A.ofDigit a.val) (A.ofDigit b.val)) (A.ofDigit c.val)) :=
  ⟨calc_print A (.bin .add (.digit a) (.bin .mul (.digit b) (.digit c))) rfl,
   calc_print A (.bin .mul (.paren (.bin .add (.digit a) (.digit b))) (.digit c)) rfl⟩

theorem calc_precedence_witness :
    Calc ratArith "1+2*3" = .ok 7 ∧ Calc ratArith "(1+2)*3" = .ok 9 := by
  have h := calc_precedence ratArith 1 2 3
  exact ⟨h.1.trans (by decide!), h.2.trans (by decide!)⟩

/-- C4. For all digits `a`, `b`, `c` and operators `op1`, `op2` where `op1` binds at least
as tightly as `op2`: when neither operation divides by zero, `Calc` on the five characters
`a op1 b op2 c` returns `(a op1 b) op2 c`. -/
theorem calc_left_assoc {F : Type} (A : Arith F) (a b c : Fin 10) (op1 op2 : BinOp)
    (h : op2.prio ≤ op1.prio) (x v : F)
    (h1 : applyOp A op1 (A.ofDigit a.val) (A.ofDigit b.val) = some x)
    (h2 : applyOp A op2 x (A.ofDigit c.val) = some v) :
    Calc A ⟨[digitChar a, op1.toChar, digitChar b, op2.toChar, digitChar c]⟩ = .ok v := by
  have hstd : (Expr.bin op2 (.bin op1 (.digit a) (.digit b)) (.digit c)).standard = true := by
    have := prio_le_two op1
    have := prio_le_two op2
    simp only [Expr.standard, rank_bin, rank_digit, Bool.and_eq_true, decide_eq_true_eq,
      true_and]
    refine ⟨⟨⟨⟨?_, ?_⟩, trivial⟩, h⟩, ?_⟩ <;> omega
  have hc := calc_print A _ hstd
  simp only [Expr.eval, h1, h2] at hc
  exact hc

theorem calc_left_assoc_witness :
    Calc ratArith "8/2-3" = .ok 1 ∧ Calc ratArith "8-2-3" = .ok 3 :=
  ⟨calc_left_assoc ratArith 8 2 3 .div .sub (by decide) 4 1 (by decide!) (by decide!),
   calc_left_assoc ratArith 8 2 3 .sub .sub (by decide) 6 3 (by decide!) (by decide!)⟩

/-- C5. For every input text `s`, `evaluateExpression` fails with `invalid expression`, the
error of its validation step, if and only if `s` without its space characters is empty or has
a character outside `0-9 + - * / ( )`; so a character that is neither a space nor in that set,
a tab or a line feed for instance, gives `invalid expression` wherever it stands in `s`. -/
theorem evaluateExpression_invalid_iff {F : Type} (A : Arith F) (format : F → String)
    (s : String) :
    (evaluateExpression A format s = .fail .invalidExpression ↔
      ((removeSpaces s).data = [] ∨ ∃ c ∈ (removeSpaces s).data, allowedChar c = false)) ∧
    (∀ c ∈ s.data, c ≠ ' ' → allowedChar c = false →
      evaluateExpression A format s = .fail .invalidExpression) ∧
    (removeSpaces s).data = s.data.filter (fun c => c ≠ ' ') ∧
    allowedChar (Char.ofNat 9) = false ∧ allowedChar (Char.ofNat 10) = false := by
  have hiff : evaluateExpression A format s = .fail .invalidExpression ↔
      ((removeSpaces s).data = [] ∨ ∃ c ∈ (removeSpaces s).data, allowedChar c = false) := by
    rw [← validExpr_false_iff]
    cases hv : validExpr (removeSpaces s) with
    | false => simp only [evaluateExpression_invalid A format s hv]
    | true =>
      rw [evaluateExpression_valid A format s hv]
      rcases calc_cleaned A (removeSpaces s) hv with ⟨v, hc, _, _⟩ | hc | hc | hc <;>
        simp [hc]
  refine ⟨hiff, ?_, rfl, by decide, by decide⟩
  intro c hc hsp hbad
  refine hiff.2 (Or.inr ⟨c, ?_, hbad⟩)
  show c ∈ s.data.filter (fun c => c ≠ ' ')
  rw [List.mem_filter]
  exact ⟨hc, by simpa using hsp⟩

theorem evaluateExpression_invalid_iff_witness :
    evaluateExpression ratArith (fun _ => "") ⟨['1', ' ', Char.ofNat 9, '+', '2']⟩ =
      .fail .invalidExpression :=
  (evaluateExpression_invalid_iff ratArith (fun _ => "")
      ⟨['1', ' ', Char.ofNat 9, '+', '2']⟩).2.1 (Char.ofNat 9) (by decide) (by decide)
    (by decide)

/-- C6, at the failing inputs. On `1+`, `()`, `1+*2` and `(1+2` the evaluation does fail,
but with the error of `Calc` whose text is not `invalid expression`: the comparison of texts
in `calculateHandler` does not recognise it and answers `Internal server error` with status
500, where the error of the validator gets `Expression is not valid` with status 422. -/
theorem invalid_input_answered_as_internal {F : Type} (A : Arith F) (format : F → String) :
    evaluateExpression A format "1+" = .fail .wrongInput ∧
    evaluateExpression A format "()" = .fail .wrongInput ∧
    evaluateExpression A format "1+*2" = .fail .wrongInput ∧
    evaluateExpression A format "(1+2" = .fail .wrongInput ∧
    errorReply .wrongInput = ("Internal server error", 500) ∧
    errorReply .invalidExpression = ("Expression is not valid", 422) ∧
    Err.wrongInput ≠ Err.invalidExpression :=
  ⟨rfl, rfl, rfl, rfl, by decide, by decide, by decide⟩

/-- C7. For every text the validator accepts whose brackets are not balanced (some part of
it from the start on has more `)` than `(`, or it has not as many `(` as `)`), `Calc`
returns a failure and never a number. -/
theorem calc_unbalanced_fails {F : Type} (A : Arith F) (s : String) (h : validExpr s = true)
    (hu : Unbalanced s.data) : ∃ err, Calc A s = .fail err := by
  rcases calc_cleaned A s h with ⟨v, _, hb, _⟩ | h1 | h1 | h1
  · exact absurd hu hb
  · exact ⟨_, h1⟩
  · exact ⟨_, h1⟩
  · exact ⟨_, h1⟩

theorem calc_unbalanced_fails_witness :
    validExpr "(1+2" = true ∧ Unbalanced "(1+2".data ∧ validExpr "1)+(2" = true ∧
      Unbalanced "1)+(2".data ∧
      (∃ err, Calc ratArith "(1+2" = .fail err) ∧ ∃ err, Calc ratArith "1)+(2" = .fail err :=
  ⟨by decide, Or.inr (by decide), by decide, Or.inl ⟨2, by decide⟩,
   calc_unbalanced_fails ratArith "(1+2" (by decide) (Or.inr (by decide)),
   calc_unbalanced_fails ratArith "1)+(2" (by decide) (Or.inl ⟨2, by decide⟩)⟩

/-- C8 as stated fails: `123+*` is accepted by the validator, has the operators `+` and `*`
next to each other, and `Calc` returns the number 7 for it; and on `1++2` and `1/0+*2` the
failure is `invalid operation` and `division by zero`, not the error of the ratio check. -/
theorem adjacent_operators_counterexample :
    validExpr "123+*" = true ∧ AdjacentOperators "123+*".data ∧
      Calc ratArith "123+*" = .ok 7 ∧
    validExpr "1++2" = true ∧ AdjacentOperators "1++2".data ∧
      Calc ratArith "1++2" = .fail .invalidOperation ∧
    validExpr "1/0+*2" = true ∧ AdjacentOperators "1/0+*2".data ∧
      Calc ratArith "1/0+*2" = .fail .divisionByZero :=
  ⟨by decide, ⟨['1', '2', '3'], '+', '*', [], rfl, rfl, rfl⟩, by decide!,
   by decide, ⟨['1'], '+', '+', ['2'], rfl, rfl, rfl⟩, by decide!,
   by decide, ⟨['1', '/', '0'], '+', '*', ['2'], rfl, rfl, rfl⟩, by decide!⟩

/-- C8, amended. For every text the validator accepts that has two binary operators next
to each other and in which the digits are not exactly one more than the operators (as in
`1+*2`), `Calc` returns no number: it fails, with the error of its bracket and ratio checks
or with `invalid operation` or `division by zero`. -/
theorem adjacent_operators_rejected {F : Type} (A : Arith F) (s : String)
    (h : validExpr s = true) (_hadj : AdjacentOperators s.data)
    (hratio : digitCount s.data ≠ operatorCount s.data + 1) :
    Calc A s = .fail .wrongInput ∨ Calc A s = .fail .invalidOperation ∨
      Calc A s = .fail .divisionByZero :=
  calc_ratio_off A s h hratio

theorem adjacent_operators_rejected_witness :
    validExpr "1+*2" = true ∧ AdjacentOperators "1+*2".data ∧
      digitCount "1+*2".data ≠ operatorCount "1+*2".data + 1 ∧
      (Calc ratArith "1+*2" = .fail .wrongInput ∨ Calc ratArith "1+*2" = .fail .invalidOperation ∨
        Calc ratArith "1+*2" = .fail .divisionByZero) :=
  ⟨by decide, ⟨['1'], '+', '*', ['2'], rfl, rfl, rfl⟩, by decide,
   adjacent_operators_rejected ratArith "1+*2" (by decide)
     ⟨['1'], '+', '*', ['2'], rfl, rfl, rfl⟩ (by decide)⟩

/-- C9 as stated fails: `12+` is accepted by the validator and ends with the operator `+`,
and `Calc` returns the number 3 for it; and on `1+-` and `1/0+` the failure is
`invalid operation` and `division by zero`. -/
theorem dangling_operator_counterexample :
    validExpr "12+" = true ∧ EndsWithOperator "12+".data ∧ Calc ratArith "12+" = .ok 3 ∧
    validExpr "1+-" = true ∧ EndsWithOperator "1+-".data ∧
      Calc ratArith "1+-" = .fail .invalidOperation ∧
    validExpr "1/0+" = true ∧ EndsWithOperator "1/0+".data ∧
      Calc ratArith "1/0+" = .fail .divisionByZero :=
  ⟨by decide, ⟨['1', '2'], '+', rfl, rfl⟩, by decide!,
   by decide, ⟨['1', '+'], '-', rfl, rfl⟩, by decide!,
   by decide, ⟨['1', '/', '0'], '+', rfl, rfl⟩, by decide!⟩

/-- C9, amended. For every text the validator accepts whose last character is a binary
operator and in which the digits are not exactly one more than the operators (as in `1+`),
`Calc` returns no number: it fails, with the error of its bracket and ratio checks or with
`invalid operation` or `division by zero`. -/
theorem dangling_operator_rejected {F : Type} (A : Arith F) (s : String)
    (h : validExpr s = true) (_hend : EndsWithOperator s.data)
    (hratio : digitCount s.data ≠ operatorCount s.data + 1) :
    Calc A s = .fail .wrongInput ∨ Calc A s = .fail .invalidOperation ∨
      Calc A s = .fail .divisionByZero :=
  calc_ratio_off A s h hratio

theorem dangling_operator_rejected_witness :
    validExpr "1+" = true ∧ EndsWithOperator "1+".data ∧
      digitCount "1+".data ≠ operatorCount "1+".data + 1 ∧
      (Calc ratArith "1+" = .fail .wrongInput ∨ Calc ratArith "1+" = .fail .invalidOperation ∨
        Calc ratArith "1+" = .fail .divisionByZero) :=
  ⟨by decide, ⟨['1'], '+', rfl, rfl⟩, by decide,
   dangling_operator_rejected ratArith "1+" (by decide) ⟨['1'], '+', rfl, rfl⟩ (by decide)⟩

/-- C10 as stated fails: `()1` is accepted by the validator and contains the empty group
`()`, and `Calc` returns the number 1 for it; and on `+-()` and `1/0+()` the failure is
`invalid operation` and `division by zero`. -/
theorem empty_group_counterexample :
    validExpr "()1" = true ∧ HasEmptyGroup "()1".data ∧ Calc ratArith "()1" = .ok 1 ∧
    validExpr "+-()" = true ∧ HasEmptyGroup "+-()".data ∧
      Calc ratArith "+-()" = .fail .invalidOperation ∧
    validExpr "1/0+()" = true ∧ HasEmptyGroup "1/0+()".data ∧
      Calc ratArith "1/0+()" = .fail .divisionByZero :=
  ⟨by decide, ⟨[], ['1'], rfl⟩, by decide!,
   by decide, ⟨['+', '-'], [], rfl⟩, by decide!,
   by decide, ⟨['1', '/', '0', '+'], [], rfl⟩, by decide!⟩

/-- C10, amended. For every text the validator accepts that contains an empty group `()`
and in which the digits are not exactly one more than the operators (as in `()` itself),
`Calc` returns no number: it fails, with the error of its bracket and ratio checks or with
`invalid operation` or `division by zero`. -/
theorem empty_group_rejected {F : Type} (A : Arith F) (s : String)
    (h : validExpr s = true) (_hgroup : HasEmptyGroup s.data)
    (hratio : digitCount s.data ≠ operatorCount s.data + 1) :
    Calc A s = .fail .wrongInput ∨ Calc A s = .fail .invalidOperation ∨
      Calc A s = .fail .divisionByZero :=
  calc_ratio_off A s h hratio

theorem empty_group_rejected_witness :
    validExpr "()" = true ∧ HasEmptyGroup "()".data ∧
      digitCount "()".data ≠ operatorCount "()".data + 1 ∧
      (Calc ratArith "()" = .fail .wrongInput ∨ Calc ratArith "()" = .fail .invalidOperation ∨
        Calc ratArith "()" = .fail .divisionByZero) :=
  ⟨by decide, ⟨[], [], rfl⟩, by decide,
   empty_group_rejected ratArith "()" (by decide) ⟨[], [], rfl⟩ (by decide)⟩

/-- C12. For every operand stack with at least two elements, `a` second from the top and
`b` on top, and every operator stack whose top is one of `+ - * /`, unless the top is `/`
and `b == 0`: `makeOperation` succeeds, the operand stack it returns is the old one with
its top two elements replaced by `a+b`, `a-b`, `a*b` or `a/b`, the operator stack is the old
one without its top, and so each stack is shorter by exactly one. -/
theorem makeOperation_success {F : Type} (A : Arith F) (a b : F) (numbers : List F)
    (top : Char) (operations : List Char)
    (htop : top = '+' ∨ top = '-' ∨ top = '*' ∨ top = '/')
    (hdiv : ¬ (top = '/' ∧ A.isZero b = true)) :
    makeOperation A (b :: a :: numbers) (top :: operations) =
        ((if top = '+' then A.add a b else if top = '-' then A.sub a b
          else if top = '*' then A.mul a b else A.div a b) :: numbers, operations, none) ∧
      (makeOperation A (b :: a :: numbers) (top :: operations)).1.length + 1 =
        (b :: a :: numbers).length ∧
      (makeOperation A (b :: a :: numbers) (top :: operations)).2.1.length + 1 =
        (top :: operations).length := by
  have hmain : makeOperation A (b :: a :: numbers) (top :: operations) =
      ((if top = '+' then A.add a b else if top = '-' then A.sub a b
        else if top = '*' then A.mul a b else A.div a b) :: numbers, operations, none) := by
    rcases htop with h | h | h | h
    · subst h; rfl
    · subst h; rfl
    · subst h; rfl
    · subst h
      have hz : ¬ A.isZero b = true := fun hb => hdiv ⟨rfl, hb⟩
      show (if A.isZero b = true then _ else _) = _
      rw [if_neg hz]; rfl
  rw [hmain]
  exact ⟨rfl, rfl, rfl⟩

theorem makeOperation_success_witness :
    makeOperation ratArith [2, 8, 1] ['/', '+'] = ([4, 1], ['+'], none) ∧
      makeOperation ratArith [2, 8, 1] ['-', '+'] = ([6, 1], ['+'], none) :=
  ⟨(makeOperation_success ratArith 8 2 [1] '/' ['+'] (by decide)
      (by decide!)).1.trans (by decide!),
   (makeOperation_success ratArith 8 2 [1] '-' ['+'] (by decide)
      (by decide!)).1.trans (by decide!)⟩

/-- C13. `makeOperation` fails exactly in these cases, in this order: fewer than two operands
or no operator gives `invalid operation`; otherwise the top operator `/` with the top operand
equal to zero gives `division by zero`, and a top operator that is none of `+ - * /` gives
`unknown operation`; in every other case it returns no error.  Whenever it returns an error
both stacks are returned unchanged. -/
theorem makeOperation_failures {F : Type} (A : Arith F) (numbersStack : List F)
    (operationsStack : List Char) :
    ((numbersStack.length < 2 ∨ operationsStack.length = 0) →
      makeOperation A numbersStack operationsStack =
        (numbersStack, operationsStack, some .invalidOperation)) ∧
    (∀ b a numbers top operations,
      numbersStack = b :: a :: numbers → operationsStack = top :: operations →
      (top = '/' → A.isZero b = true →
        makeOperation A numbersStack operationsStack =
          (numbersStack, operationsStack, some .divisionByZero)) ∧
      (isOperator top = false →
        makeOperation A numbersStack operationsStack =
          (numbersStack, operationsStack, some .unknownOperation)) ∧
      (isOperator top = true → ¬ (top = '/' ∧ A.isZero b = true) →
        (makeOperation A numbersStack operationsStack).2.2 = none)) ∧
    (∀ err, (makeOperation A numbersStack operationsStack).2.2 = some err →
      (makeOperation A numbersStack operationsStack).1 = numbersStack ∧
      (makeOperation A numbersStack operationsStack).2.1 = operationsStack) := by
  refine ⟨?_, ?_, ?_⟩
  · rintro (h | h)
    · exact makeOperation_short A numbersStack operationsStack h
    · match numbersStack, operationsStack, h with
      | [], [], _ => rfl
      | [_], [], _ => rfl
      | _ :: _ :: _, [], _ => rfl
  · intro b a numbers top operations hn ho
    subst hn; subst ho
    refine ⟨?_, ?_, ?_⟩
    · intro ht hz
      subst ht
      show (if A.isZero b = true then _ else _) = _
      rw [if_pos hz]
    · intro hno
      simp only [isOperator, Bool.or_eq_false_iff, decide_eq_false_iff_not] at hno
      obtain ⟨⟨⟨h1, h2⟩, h3⟩, h4⟩ := hno
      simp only [makeOperation, if_neg h1, if_neg h2, if_neg h3, if_neg h4]
    · intro hop hdiv
      rcases makeOperation_cases A top hop a b numbers operations with ⟨v, hv⟩ | hz
      · rw [hv]
      · exfalso
        obtain ⟨o, rfl⟩ := isOperator_toChar top hop
        rw [makeOperation_operator] at hz
        cases o with
        | add => simp [applyOp] at hz
        | sub => simp [applyOp] at hz
        | mul => simp [applyOp] at hz
        | div =>
          apply hdiv
          refine ⟨rfl, ?_⟩
          cases hb : A.isZero b with
          | true => rfl
          | false => simp [applyOp, hb] at hz
  · intro err herr
    match numbersStack, operationsStack with
    | [], ops => exact ⟨rfl, rfl⟩
    | [_], ops => exact ⟨rfl, rfl⟩
    | _ :: _ :: _, [] => exact ⟨rfl, rfl⟩
    | b :: a :: numbers, top :: operations =>
      by_cases hop : isOperator top = true
      · rcases makeOperation_cases A top hop a b numbers operations with ⟨v, hv⟩ | hz
        · rw [hv] at herr; cases herr
        · rw [hz]; exact ⟨rfl, rfl⟩
      · have hno : isOperator top = false := by simpa using hop
        simp only [isOperator, Bool.or_eq_false_iff, decide_eq_false_iff_not] at hno
        obtain ⟨⟨⟨h1, h2⟩, h3⟩, h4⟩ := hno
        simp only [makeOperation, if_neg h1, if_neg h2, if_neg h3, if_neg h4]
        exact ⟨trivial, trivial⟩

theorem makeOperation_failures_witness :
    makeOperation ratArith [1] ['+'] = ([1], ['+'], some .invalidOperation) ∧
      makeOperation ratArith [0, 5] ['/'] = ([0, 5], ['/'], some .divisionByZero) ∧
      makeOperation ratArith [2, 1] ['('] = ([2, 1], ['('], some .unknownOperation) ∧
      makeOperation ratArith [0] ['('] = ([0], ['('], some .invalidOperation) :=
  ⟨(makeOperation_failures ratArith [1] ['+']).1 (Or.inl (by decide)),
   ((makeOperation_failures ratArith [0, 5] ['/']).2.1 0 5 [] '/' [] rfl rfl).1 rfl
     (by decide!),
   ((makeOperation_failures ratArith [2, 1] ['(']).2.1 2 1 [] '(' [] rfl rfl).2.1 (by decide),
   (makeOperation_failures ratArith [0] ['(']).1 (Or.inl (by decide))⟩

/-- C14. The outcome of `evaluateExpression` does not depend on the space characters of its
input: it is the same on `s` and on `s` without its spaces, the same on any two texts that
differ in their spaces only, and the same after a space is inserted anywhere in `s`; result
and failure alike. -/
theorem evaluateExpression_spaces {F : Type} (A : Arith F) (format : F → String) (s : String) :
    evaluateExpression A format s = evaluateExpression A format (removeSpaces s) ∧
    (∀ t : String, removeSpaces t = removeSpaces s →
      evaluateExpression A format t = evaluateExpression A format s) ∧
    (∀ pre post : List Char, s.data = pre ++ post →
      evaluateExpression A format ⟨pre ++ ' ' :: post⟩ = evaluateExpression A format s) := by
  refine ⟨?_, ?_, ?_⟩
  · exact evaluateExpression_congr A format _ _ (removeSpaces_idem s).symm
  · intro t ht
    exact evaluateExpression_congr A format t s ht
  · intro pre post hs
    apply evaluateExpression_congr
    rw [removeSpaces_insert]
    cases s
    simp only at hs
    rw [hs]

theorem evaluateExpression_spaces_witness :
    evaluateExpression ratArith integerText "1 + 2" = .ok "3" ∧
      evaluateExpression ratArith integerText "1+2" = .ok "3" ∧
      evaluateExpression ratArith integerText "5 /0" = .fail .divisionByZero := by
  have h1 := (evaluateExpression_spaces ratArith integerText "1+2").2.1 "1 + 2" (by decide)
  have h2 := (evaluateExpression_spaces ratArith integerText "5/0").2.2 ['5'] ['/', '0']
    (by decide)
  have e1 : evaluateExpression ratArith integerText "1+2" = .ok "3" := by decide!
  have e2 : evaluateExpression ratArith integerText "5/0" = .fail .divisionByZero := by decide!
  exact ⟨h1.trans e1, e1, h2.trans e2⟩

/-- C11 as stated fails: `1++2` and `(+)` pass the validator and `Calc` fails on them with
`invalid operation`, the error of `makeOperation` for a stack with fewer than two operands. -/
theorem internal_error_counterexample :
    validExpr "1++2" = true ∧ Calc ratArith "1++2" = .fail .invalidOperation ∧
      validExpr "(+)" = true ∧ Calc ratArith "(+)" = .fail .invalidOperation :=
  ⟨by decide, by decide!, by decide, by decide!⟩

/-- C11, amended. For every text the validator accepts, `Calc` never fails with
`unknown operation`; and when the text is a well-formed expression (the text of a tree of
the grammar) it never fails with `invalid operation` either. -/
theorem calc_internal_errors {F : Type} (A : Arith F) (s : String) (h : validExpr s = true) :
    Calc A s ≠ .fail .unknownOperation ∧
      ∀ e : Expr, s.data = e.print → Calc A s ≠ .fail .invalidOperation := by
  refine ⟨?_, ?_⟩
  · rcases calc_cleaned A s h with ⟨v, hv, _, _⟩ | hv | hv | hv <;> rw [hv] <;> simp
  · intro e he
    have hs : s = ⟨e.reading.print⟩ := by
      rw [reading_print]; exact string_eq_of_data s e.print he
    rw [hs, calc_print A e.reading (reading_standard e)]
    cases e.reading.eval A <;> simp

theorem calc_internal_errors_witness :
    validExpr "8/2-3" = true ∧ Calc ratArith "8/2-3" ≠ .fail .unknownOperation ∧
      Calc ratArith "8/2-3" ≠ .fail .invalidOperation :=
  ⟨by decide, (calc_internal_errors ratArith "8/2-3" (by decide)).1,
   (calc_internal_errors ratArith "8/2-3" (by decide)).2
     (.bin .sub (.bin .div (.digit 8) (.digit 2)) (.digit 3)) (by decide)⟩

/-- C15 as stated fails: on `a`, and on `2+x`, no branch of the scan handles the letter, the
index stays where it is and the loop repeats for ever: whatever the budget of iterations, the
loop has not ended when it is used up. -/
theorem calc_nontermination_counterexample :
    Calc ratArith "a" = .diverge ∧ Calc ratArith "2+x" = .diverge ∧
      (∀ fuel, scanLoop ratArith fuel "a".data (initState ℚ) = .diverge) ∧
      (∀ fuel, 2 < fuel → scanLoop ratArith fuel "2+x".data (initState ℚ) = .diverge) := by
  refine ⟨by decide!, by decide!, ?_, ?_⟩
  · intro fuel
    exact scanLoop_stuck ratArith 'a' [] _ (by decide) (by decide) (by decide) (by decide) fuel
  · intro fuel hf
    match fuel, hf with
    | fuel + 3, _ =>
      have h := scanLoop_stuck ratArith 'x' []
        { numbersStack := [ratArith.ofDigit 2], operationsStack := ['+'],
          leftBrackets := 0, rightBrackets := 0 }
        (by decide) (by decide) (by decide) (by decide) (fuel + 1)
      exact h

/-- C15, amended. For every text that has passed the validator, `Calc` terminates with a
number or a failure: every iteration of the scan on a character of the validator's class
consumes the character or returns, and the scan gives the same outcome for every budget of
iterations larger than the length of the text. -/
theorem calc_terminates_cleaned {F : Type} (A : Arith F) (s : String)
    (h : validExpr s = true) :
    ((∃ v, Calc A s = .ok v) ∨ ∃ err, Calc A s = .fail err) ∧
      (∀ c ∈ s.data, ∀ st : CalcState F, scanStep A c st ≠ .diverge) ∧
      (∀ fuel, s.data.length < fuel →
        scanLoop A fuel s.data (initState F) =
          scanLoop A (s.data.length + 1) s.data (initState F)) ∧
      scanLoop A (s.data.length + 1) s.data (initState F) ≠ .diverge := by
  have hall := (validExpr_iff s).1 h
  refine ⟨?_, fun c hc st => scanStep_not_diverge A c (hall.2 c hc) st, ?_, ?_⟩
  · rcases calc_cleaned A s h with ⟨v, hv, _, _⟩ | hv | hv | hv
    · exact Or.inl ⟨v, hv⟩
    · exact Or.inr ⟨_, hv⟩
    · exact Or.inr ⟨_, hv⟩
    · exact Or.inr ⟨_, hv⟩
  · intro fuel hf
    rw [scanLoop_eq_scan A _ _ _ hf, scanLoop_eq_scan A _ _ _ (Nat.lt_succ_self _)]
  · rw [scanLoop_eq_scan A _ _ _ (Nat.lt_succ_self _)]
    rcases scan_cases A s.data (initState F) hall.2 (stackInv_init F) with
      ⟨st, hs, _⟩ | hs | hs | hs <;> rw [hs] <;> simp

theorem calc_terminates_cleaned_witness :
    validExpr "(1+2)*3" = true ∧
      ((∃ v, Calc ratArith "(1+2)*3" = .ok v) ∨ ∃ err, Calc ratArith "(1+2)*3" = .fail err) :=
  ⟨by decide, (calc_terminates_cleaned ratArith "(1+2)*3" (by decide)).1⟩

/-- C17. The bracket invariant of the scan of a text the validator accepts. At every
iteration boundary, that is in the state `st` the scan has reached after a first part `pre`
of the text, from which the loop of `Calc` goes on with the rest: `rightBrackets` is 0, so it
is at most `leftBrackets`; `leftBrackets` is the number of `(` on the operator stack, and
it is the number of `(` minus the number of `)` in `pre`.  An iteration on a character
other than `)` removes no `(` from the operator stack, and neither does any reducing loop
nor `makeOperation`. -/
theorem bracket_invariant {F : Type} (A : Arith F) (s : String) (h : validExpr s = true) :
    (∀ (pre rest : List Char) (st : CalcState F), s.data = pre ++ rest →
      scan A pre (initState F) = .ok st →
      scanLoop A (s.data.length + 1) s.data (initState F) =
        scanLoop A (rest.length + 1) rest st ∧
      st.rightBrackets = 0 ∧ st.rightBrackets ≤ st.leftBrackets ∧
      st.leftBrackets = (st.operationsStack.count '(' : Int) ∧
      st.leftBrackets = (pre.count '(' : Int) - (pre.count ')' : Int)) ∧
    (∀ (pre : List Char) (c : Char) (rest : List Char) (st st1 : CalcState F),
      s.data = pre ++ c :: rest → scan A pre (initState F) = .ok st →
      scanStep A c st = .ok st1 → c ≠ ')' →
      st.operationsStack.count '(' ≤ st1.operationsStack.count '(') ∧
    (∀ (guard : List Char → Guard) (fuel : Nat) (ns ns1 : List F) (ops ops1 : List Char),
      reduceLoop A guard fuel ns ops = .ok (ns1, ops1) → ops1.count '(' = ops.count '(') ∧
    (∀ (ns ns1 : List F) (ops ops1 : List Char),
      makeOperation A ns ops = (ns1, ops1, none) → ops1.count '(' = ops.count '(') := by
  refine ⟨?_, ?_, fun guard fuel ns ns1 ops ops1 => reduceLoop_keeps_open A guard fuel ns ns1 ops ops1,
    fun ns ns1 ops ops1 => makeOperation_keeps_open A ns ns1 ops ops1⟩
  · intro pre rest st hs hscan
    obtain ⟨⟨hr0, _, hcount⟩, hl⟩ := scan_boundary A s h pre rest st hs hscan
    refine ⟨?_, hr0, ?_, hcount.symm, hl⟩
    · rw [hs]; exact scanLoop_boundary A pre rest st hscan
    · rw [hr0, ← hcount]; exact Int.ofNat_nonneg _
  · intro pre c rest st st1 hs hscan hstep hc
    obtain ⟨hinv, _⟩ := scan_boundary A s h pre (c :: rest) st hs hscan
    have hallowed : allowedChar c = true :=
      ((validExpr_iff s).1 h).2 c (by rw [hs]; simp)
    have hzero : [c].count ')' = 0 := by
      rw [List.count_cons_of_ne (Ne.symm hc), List.count_nil]
    rcases scanStep_cases A c hallowed st hinv with ⟨st2, h2, hinv2, hl2, _, _⟩ | h2 | h2 | h2
    · rw [hstep] at h2
      cases h2
      have c1 := hinv.2.2
      have c2 := hinv2.2.2
      rw [hzero] at hl2
      have : (st.operationsStack.count '(' : Int) ≤ (st1.operationsStack.count '(' : Int) := by
        rw [c1, c2, hl2]; simp
      exact_mod_cast this
    · rw [hstep] at h2; cases h2
    · rw [hstep] at h2; cases h2
    · rw [hstep] at h2; cases h2

theorem bracket_invariant_witness :
    validExpr "(1+2)*3" = true ∧
      scan ratArith "(1+".data (initState ℚ) = .ok ⟨[1], ['+', '('], 1, 0⟩ ∧
      (⟨[1], ['+', '('], 1, 0⟩ : CalcState ℚ).leftBrackets =
        ("(1+".data.count '(' : Int) - ("(1+".data.count ')' : Int) :=
  ⟨by decide, by decide!,
   ((bracket_invariant ratArith "(1+2)*3" (by decide)).1 "(1+".data "2)*3".data
      ⟨[1], ['+', '('], 1, 0⟩ (by decide) (by decide!)).2.2.2.2⟩

/-- C18. On a text the validator accepts no stack access of `Calc` is out of bounds, `Calc`
does not panic: no iteration of the scan panics; whenever a `)` is processed with
`leftBrackets >= rightBrackets` after the increment, the operator stack contains a `(`, so
the unwinding loop stops on a stack that is not empty and the pop of `(` is in bounds; and
when the checks after the scan have passed, the drain loop ends with exactly one operand
and no operator, so `numbersStack[0]` exists. -/
theorem calc_no_panic {F : Type} (A : Arith F) (s : String) (h : validExpr s = true) :
    Calc A s ≠ .panic ∧
    (∀ (pre : List Char) (c : Char) (rest : List Char) (st : CalcState F),
      s.data = pre ++ c :: rest → scan A pre (initState F) = .ok st →
      scanStep A c st ≠ .panic) ∧
    (∀ (pre rest : List Char) (st : CalcState F), s.data = pre ++ ')' :: rest →
      scan A pre (initState F) = .ok st → st.leftBrackets ≥ st.rightBrackets + 1 →
      '(' ∈ st.operationsStack ∧
      ∀ numbers operations,
        reduceLoop A bracketGuard (st.operationsStack.length + 1) st.numbersStack
          st.operationsStack = .ok (numbers, operations) → operations ≠ []) ∧
    (∀ (st : CalcState F) (numbers : List F) (operations : List Char),
      scan A s.data (initState F) = .ok st → st.leftBrackets = 0 → st.rightBrackets = 0 →
      (st.numbersStack.length : Int) - 1 = st.operationsStack.length →
      reduceLoop A drainGuard (st.operationsStack.length + 1) st.numbersStack
        st.operationsStack = .ok (numbers, operations) →
      numbers.length = 1 ∧ operations = []) := by
  have hall := ((validExpr_iff s).1 h).2
  refine ⟨?_, ?_, ?_, ?_⟩
  · rcases calc_cleaned A s h with ⟨v, hv, _, _⟩ | hv | hv | hv <;> rw [hv] <;> simp
  · intro pre c rest st hs hscan
    obtain ⟨hinv, _⟩ := scan_boundary A s h pre (c :: rest) st hs hscan
    have hallowed : allowedChar c = true := hall c (by rw [hs]; simp)
    rcases scanStep_cases A c hallowed st hinv with ⟨st2, h2, _⟩ | h2 | h2 | h2 <;>
      rw [h2] <;> simp
  · intro pre rest st hs hscan hge
    obtain ⟨⟨hr0, _, hcount⟩, _⟩ := scan_boundary A s h pre (')' :: rest) st hs hscan
    have hpos : 0 < st.operationsStack.count '(' := by omega
    refine ⟨List.count_pos_iff.1 hpos, ?_⟩
    intro numbers operations hloop hnil
    have hk := reduceLoop_keeps_open A bracketGuard _ _ _ _ _ hloop
    rw [hnil] at hk
    simp at hk
    omega
  · intro st numbers operations hscan hl _ hratio hloop
    obtain ⟨hinv, _⟩ := scan_end_counts A s.data hall st hscan hl
    have hops := operators_of_no_open st hinv hl
    rcases drain_ratio A (st.operationsStack.length + 1) st.numbersStack st.operationsStack
        (Nat.lt_succ_self _) hops (by omega) with ⟨v, hv⟩ | hv
    · rw [hv] at hloop
      simp only [Res.ok.injEq, Prod.mk.injEq] at hloop
      rw [← hloop.1, ← hloop.2]
      exact ⟨rfl, rfl⟩
    · rw [hv] at hloop; cases hloop

theorem calc_no_panic_witness :
    validExpr "(1+2)*3" = true ∧ Calc ratArith "(1+2)*3" ≠ .panic ∧
      '(' ∈ (⟨[2, 1], ['+', '('], 1, 0⟩ : CalcState ℚ).operationsStack :=
  ⟨by decide, (calc_no_panic ratArith "(1+2)*3" (by decide)).1,
   ((calc_no_panic ratArith "(1+2)*3" (by decide)).2.2.1 "(1+2".data "*3".data
      ⟨[2, 1], ['+', '('], 1, 0⟩ (by decide) (by decide!) (by decide)).1⟩

/-- C19. On a text the validator accepts whose scan has returned a state and passed the
bracket check and the ratio check, the drain loop either ends with no operator and exactly
one operand, which `Calc` returns, or fails with `division by zero`, which `Calc` returns;
it fails with nothing else. -/
theorem drain_outcome {F : Type} (A : Arith F) (s : String) (h : validExpr s = true)
    (st : CalcState F) (hscan : scan A s.data (initState F) = .ok st)
    (hl : st.leftBrackets = 0) (hr : st.rightBrackets = 0)
    (hratio : (st.numbersStack.length : Int) - 1 = st.operationsStack.length) :
    (∃ v, reduceLoop A drainGuard (st.operationsStack.length + 1) st.numbersStack
          st.operationsStack = .ok ([v], []) ∧ Calc A s = .ok v) ∨
    (reduceLoop A drainGuard (st.operationsStack.length + 1) st.numbersStack
          st.operationsStack = .fail .divisionByZero ∧ Calc A s = .fail .divisionByZero) := by
  have hall := ((validExpr_iff s).1 h).2
  obtain ⟨hinv, _⟩ := scan_end_counts A s.data hall st hscan hl
  have hops := operators_of_no_open st hinv hl
  have hb : ¬ (st.leftBrackets ≠ 0 ∨ st.rightBrackets ≠ 0) := by
    rintro (h1 | h1)
    · exact h1 hl
    · exact h1 hr
  have hq : ¬ ((st.numbersStack.length : Int) - 1 ≠ st.operationsStack.length) :=
    fun hne => hne hratio
  rw [calc_eq, hscan]
  rcases drain_ratio A (st.operationsStack.length + 1) st.numbersStack st.operationsStack
      (Nat.lt_succ_self _) hops (by omega) with ⟨v, hv⟩ | hv
  · exact Or.inl ⟨v, hv, by simp only [finish, if_neg hb, if_neg hq, hv]; rfl⟩
  · exact Or.inr ⟨hv, by simp only [finish, if_neg hb, if_neg hq, hv]⟩

theorem drain_outcome_witness :
    validExpr "1+2*3" = true ∧
      scan ratArith "1+2*3".data (initState ℚ) = .ok ⟨[3, 2, 1], ['*', '+'], 0, 0⟩ ∧
      reduceLoop ratArith drainGuard 3 [3, 2, 1] ['*', '+'] = .ok ([7], []) ∧
      Calc ratArith "1+2*3" = .ok 7 := by
  have hs : scan ratArith "1+2*3".data (initState ℚ) = .ok ⟨[3, 2, 1], ['*', '+'], 0, 0⟩ := by
    decide!
  rcases drain_outcome ratArith "1+2*3" (by decide) ⟨[3, 2, 1], ['*', '+'], 0, 0⟩ hs rfl rfl
      (by decide) with ⟨v, hv, hc⟩ | ⟨hv, _⟩
  · have h7 : reduceLoop ratArith drainGuard 3 [3, 2, 1] ['*', '+'] = .ok ([7], []) := by
      decide!
    have hv7 : v = 7 := by
      have := hv.symm.trans h7
      simpa using this
    subst hv7
    exact ⟨by decide, hs, h7, hc⟩
  · have h7 : reduceLoop ratArith drainGuard 3 [3, 2, 1] ['*', '+'] = .ok ([7], []) := by
      decide!
    rw [show (⟨[3, 2, 1], ['*', '+'], 0, 0⟩ : CalcState ℚ).operationsStack.length + 1 = 3
      from rfl] at hv
    exact absurd (hv.symm.trans h7) (by simp)

/-- C20. On a text the validator accepts whose scan has returned a state with balanced
brackets, the operands minus the operators on the stacks are the digit characters minus
the operator characters of the text, because a successful `makeOperation` removes exactly
one operand and one operator.  So the ratio check passes if and only if the text has
exactly one digit more than operators, whatever their order: on any reordering of the
text whose scan also returns a state with balanced brackets the check gives the same. -/
theorem ratio_check_counts {F : Type} (A : Arith F) (s : String) (h : validExpr s = true)
    (st : CalcState F) (hscan : scan A s.data (initState F) = .ok st)
    (hl : st.leftBrackets = 0) (_hr : st.rightBrackets = 0) :
    (st.numbersStack.length : Int) - st.operationsStack.length =
        (digitCount s.data : Int) - (operatorCount s.data : Int) ∧
    ((st.numbersStack.length : Int) - 1 = st.operationsStack.length ↔
        digitCount s.data = operatorCount s.data + 1) ∧
    (∀ (ns ns1 : List F) (ops ops1 : List Char),
      makeOperation A ns ops = (ns1, ops1, none) →
      ns1.length + 1 = ns.length ∧ ops1.length + 1 = ops.length) ∧
    (∀ (t : String) (st2 : CalcState F), t.data.Perm s.data →
      scan A t.data (initState F) = .ok st2 → st2.leftBrackets = 0 →
      st2.rightBrackets = 0 →
      ((st2.numbersStack.length : Int) - 1 = st2.operationsStack.length ↔
        (st.numbersStack.length : Int) - 1 = st.operationsStack.length)) := by
  have hall := ((validExpr_iff s).1 h).2
  obtain ⟨_, hc⟩ := scan_end_counts A s.data hall st hscan hl
  refine ⟨hc, by omega, ?_, ?_⟩
  · intro ns ns1 ops ops1 hm
    have := makeOperation_ok_length A ns ns1 ops ops1 hm
    exact ⟨this.2, this.1⟩
  · intro t st2 hperm hscan2 hl2 _
    have hall2 : ∀ c ∈ t.data, allowedChar c = true := fun c hc2 =>
      hall c (hperm.mem_iff.1 hc2)
    obtain ⟨_, hc2⟩ := scan_end_counts A t.data hall2 st2 hscan2 hl2
    have hd : digitCount t.data = digitCount s.data := hperm.countP_eq _
    have ho : operatorCount t.data = operatorCount s.data := hperm.countP_eq _
    omega

theorem ratio_check_counts_witness :
    validExpr "1+*2" = true ∧
      scan ratArith "1+*2".data (initState ℚ) = .ok ⟨[2, 1], ['*', '+'], 0, 0⟩ ∧
      ((⟨[2, 1], ['*', '+'], 0, 0⟩ : CalcState ℚ).numbersStack.length : Int) -
          (⟨[2, 1], ['*', '+'], 0, 0⟩ : CalcState ℚ).operationsStack.length =
        (digitCount "1+*2".data : Int) - (operatorCount "1+*2".data : Int) :=
  ⟨by decide, by decide!,
   (ratio_check_counts ratArith "1+*2" (by decide) ⟨[2, 1], ['*', '+'], 0, 0⟩ (by decide!)
      rfl rfl).1⟩

/-- C16. On every text the validator accepts `Calc` terminates, with a number or a failure,
and the total number of calls of `makeOperation` it makes, the failing one included, is at
most the number of binary operator characters of the text, hence at most its length. -/
theorem calc_linear_work {F : Type} (A : Arith F) (s : String) (h : validExpr s = true) :
    (CalcCounted A s).1 = Calc A s ∧
      ((∃ v, Calc A s = .ok v) ∨ ∃ err, Calc A s = .fail err) ∧
      (CalcCounted A s).2 ≤ operatorCount s.data ∧
      operatorCount s.data ≤ s.data.length := by
  refine ⟨calcCounted_fst A s, ?_, calcCounted_bound A s ((validExpr_iff s).1 h).2,
    List.countP_le_length _⟩
  rcases calc_cleaned A s h with ⟨v, hv, _, _⟩ | hv | hv | hv
  · exact Or.inl ⟨v, hv⟩
  · exact Or.inr ⟨_, hv⟩
  · exact Or.inr ⟨_, hv⟩
  · exact Or.inr ⟨_, hv⟩

theorem calc_linear_work_witness :
    validExpr "8/2-3" = true ∧ CalcCounted ratArith "8/2-3" = (.ok 1, 2) ∧
      operatorCount "8/2-3".data = 2 ∧
      (CalcCounted ratArith "8/2-3").2 ≤ operatorCount "8/2-3".data :=
  ⟨by decide, by decide!, by decide,
   (calc_linear_work ratArith "8/2-3" (by decide)).2.2.1⟩

end Calculation
